import Mathlib

/-!
# Verification of the `toposort` package

Shallow embedding of `graph.go` and `multierror.go` (the `MultiError` file)
from the `toposort` repository, together with theorems settling the
specification claims.

Modelling conventions:
* Go maps are modelled as association lists; a `for k := range m` loop over a
  map is modelled by an explicit iteration-order parameter (a permutation of
  the map's entries), since Go map iteration order is unspecified.
* Go's unbounded recursion (`visit` in `tsort` and in `validateGraph`) is
  modelled with an explicit fuel argument; the fuel chosen (`length + 1`)
  is provably sufficient wherever the Go code terminates.
* `strings.ToLower` / `unicode.IsLetter` are modelled by `Char.toLower` /
  `Char.isAlpha`, i.e. over the ASCII fragment that all inputs of the
  claims live in.
* `len(s)` on a Go string is the byte length; for ASCII strings this equals
  `String.length`, which is used here.
-/

namespace Toposort

/-- Association-list lookup with a default value: models `m[k]` on a Go map
(missing keys yield the zero value). -/
def lookupD {α : Type} (l : List (String × α)) (k : String) (d : α) : α :=
  match l.find? (fun e => e.1 == k) with
  | some e => e.2
  | none => d

/-- Models `_, ok := m[k]` on a Go map. -/
def containsKey {α : Type} (l : List (String × α)) (k : String) : Bool :=
  l.any (fun e => e.1 == k)

/-- Models `m[k] = v` on a Go map: update in place if present, else append. -/
def assocSet (l : List (String × String)) (k v : String) : List (String × String) :=
  if containsKey l k then l.map (fun e => if e.1 == k then (k, v) else e)
  else l ++ [(k, v)]

/-- The three sentinel error kinds of the package:
`ErrCircular`, `ErrMultipleRoots`, `ErrInvalidName`. -/
inductive ErrKind where
  | circular
  | multipleRoots
  | invalidName
deriving DecidableEq, Repr

/-- An error produced by the package pipeline: each is a
`fmt.Errorf("%w: ...", sentinel, payload)` wrapping one sentinel; the payload
is kept structured (the Go code renders it by joining with `" -> "` or
`", "` or quoting). -/
inductive Err where
  | circular (path : List String)
  | multipleRoots (names : List String)
  | invalidName (name : String)
deriving DecidableEq, Repr

/-- The sentinel kind an `Err` wraps (what `errors.Is` against a sentinel
matches on). -/
def Err.kind : Err → ErrKind
  | .circular _ => .circular
  | .multipleRoots _ => .multipleRoots
  | .invalidName _ => .invalidName

/-- `MultiError.Is` specialised to the aggregates the pipeline produces
(a flat list of wrapped sentinel errors, matched against a sentinel kind):
`errors.Is(e, target)` on a wrapped error unwraps to its sentinel. -/
def errsIs (es : List Err) (k : ErrKind) : Bool :=
  es.any (fun e => e.kind == k)

/-- Models `strings.ToLower` over the ASCII fragment (character-wise
lower-casing). -/
def toLower (s : String) : String :=
  ⟨s.data.map Char.toLower⟩

/-- Models `isAlpha` from `graph.go` (over ASCII: `unicode.IsLetter`
restricted to ASCII letters). Returns `true` on the empty string, as the Go
loop does. -/
def isAlpha (s : String) : Bool :=
  s.data.all Char.isAlpha

/-- A name passes validation iff it is all-alphabetic and at least 2
characters long (`!isAlpha(k) || len(k) < 2` is the rejection test). -/
def validName (s : String) : Bool :=
  isAlpha s && decide (2 ≤ s.length)

/-- One step of the `for k, v := range data` loop of `buildRelations`:
state is `(relations, ids, err)`. -/
def buildRelStep : (List (String × String) × List (String × String) × List Err) →
    (String × String) → (List (String × String) × List (String × String) × List Err)
  | (rels, ids, err), (k, v) =>
    let sk := toLower k
    let sv := toLower v
    let rels := assocSet rels sk sv
    let (ids, err) :=
      if containsKey ids sk then (ids, err)
      else (ids ++ [(sk, k)], if validName k then err else err ++ [Err.invalidName k])
    let (ids, err) :=
      if containsKey ids sv then (ids, err)
      else (ids ++ [(sv, v)], if validName v then err else err ++ [Err.invalidName v])
    (rels, ids, err)

/-- Models `buildRelations`: lower-cases all IDs into a fresh relations map,
records the first original spelling of each lower-cased ID in `ids`, and
collects an invalid-name error for each first-encountered original that
fails validation.  The `data` list is the input map in its iteration
order. -/
def buildRelations (data : List (String × String)) :
    List (String × String) × List (String × String) × List Err :=
  data.foldl buildRelStep ([], [], [])

/-- Ensure a vertex exists for `k` (`if _, ok := vertices[k]; !ok`).
A vertex is represented by its `afters` list, keyed by its id. -/
def addKey (vs : List (String × List String)) (k : String) : List (String × List String) :=
  if containsKey vs k then vs else vs ++ [(k, [])]

/-- `vertices[p].afters = append(vertices[p].afters, c)`. -/
def appendAfter (vs : List (String × List String)) (p c : String) :
    List (String × List String) :=
  vs.map (fun e => if e.1 == p then (e.1, e.2 ++ [c]) else e)

/-- Models the vertex-building loop of `NewGraph`:
`for c, p := range relations { ensure c; ensure p; p.afters += c }`.
`relOrder` is the iteration order of the `relations` map. -/
def buildVertices (relOrder : List (String × String)) : List (String × List String) :=
  relOrder.foldl (fun vs cp => appendAfter (addKey (addKey vs cp.1) cp.2) cp.2 cp.1) []

/-- The mutable state threaded through `tsort`'s recursive `visit`. -/
structure TState where
  sorted : List String
  visited : List String
  recursive : List String
  recursion : List String
deriving DecidableEq, Repr

/-- Initial `tsort` state. -/
def TState.init : TState := ⟨[], [], [], []⟩

/-- Models `visit(id, ancestors)` from `tsort`.  The fuel argument models
Go's call stack (Go recursion is unbounded; the fuel used by `tsort` below
is provably never exhausted).  `recursive` is a Go set (`map[string]bool`):
only membership in the list is meaningful.  The inner `foldl` is the
`for _, afterID := range vertex.afters` loop: on a back-edge (`afterID`
already among the ancestors) it flags `id` and every ancestor as recursive
and appends `id :: ancestors` to the flat recursion-path record; otherwise
it recurses with the extended ancestor path. -/
def visit (g : List (String × List String)) :
    Nat → String → List String → TState → TState
  | 0, _, _, s => s
  | fuel + 1, id, ancestors, s =>
    if id ∈ s.visited then s
    else
      let anc := ancestors ++ [id]
      let s1 : TState := { s with visited := id :: s.visited }
      let s2 := (lookupD g id []).foldl
        (fun t afterID =>
          if afterID ∈ anc then
            { t with recursive := t.recursive ++ (id :: anc),
                     recursion := t.recursion ++ (id :: anc) }
          else visit g fuel afterID anc t) s1
      { s2 with sorted := id :: s2.sorted }

/-- The inner loop of `visit`, as a named function of the remaining
`afters` list (definitionally the `foldl` in `visit`; stated separately so
proofs can induct on the list). -/
def visitAfters (g : List (String × List String)) (fuel : Nat) (id : String)
    (afters anc : List String) (s : TState) : TState :=
  afters.foldl
    (fun t afterID =>
      if afterID ∈ anc then
        { t with recursive := t.recursive ++ (id :: anc),
                 recursion := t.recursion ++ (id :: anc) }
      else visit g fuel afterID anc t) s

/-- Models `tsort(g)`: runs `visit(k, [])` over every vertex key in the map's
iteration order `order` and returns `(sorted, recursive, recursion)`. -/
def tsort (g : List (String × List String)) (order : List String) :
    List String × List String × List String :=
  let s := order.foldl (fun s k => visit g (g.length + 1) k [] s) TState.init
  (s.sorted, s.recursive, s.recursion)

/-- The named-graph result object. -/
structure Graph where
  data : List (String × List String)
  ids : List (String × String)
  sorted : List String
  recursive : List String
  recursion : List String
deriving DecidableEq, Repr

/-- Models the inner `visit` of `validateGraph`, which adds up
`length += 1` over every edge reachable from `id` (re-walking shared
subtrees).  The Go recursion is unbounded (it would not return on a vertex
from which a cycle is reachable — guarded by the `recursive` check at the
call site); the fuel models its call stack. -/
def countEdges (g : List (String × List String)) : Nat → String → Nat
  | 0, _ => 0
  | fuel + 1, id =>
    (lookupD g id []).foldl (fun n a => n + 1 + countEdges g fuel a) 0

/-- One step of the root-detection loop of `validateGraph`: state is
`(roots, length)`; `o` saves the previous length, `length` is reset, and a
vertex whose reachable-edge count exceeds the previous one is a new root.
Cycle-flagged vertices are skipped (leaving `length = 0`). -/
def rootStep (g : Graph) (st : List String × Nat) (id : String) : List String × Nat :=
  let o := st.2
  if id ∈ g.recursive then (st.1, 0)
  else
    let len := countEdges g.data (g.data.length + 1) id
    (if o < len then st.1 ++ [id] else st.1, len)

/-- Models the run-splitting loop of `validateGraph`: walks the flat
`recursion` record with a closing key `ko` (sentinel `""` for unset) and the
current run `cur` accumulated since the last close; a repetition of `ko`
closes a run. -/
def splitRec : List String → String → List String → List (List String) →
    List (List String)
  | [], _, _, acc => acc
  | k :: rest, ko, cur, acc =>
    if k == ko then splitRec rest "" [] (acc ++ [cur ++ [k]])
    else if ko == "" then splitRec rest k (cur ++ [k]) acc
    else splitRec rest ko (cur ++ [k]) acc

/-- Models `validateGraph`: one cyclic error per split recursion run, then a
multiple-roots error (naming the original spellings of the detected roots)
if more than one root was counted. -/
def validateGraph (g : Graph) : List Err :=
  let roots := (g.sorted.foldl (rootStep g) ([], 0)).1
  let recursions := splitRec g.recursion "" [] []
  let errs := recursions.map Err.circular
  if 1 < roots.length then
    errs ++ [Err.multipleRoots (roots.map (fun k => lookupD g.ids k ""))]
  else errs

/-- Models `NewGraph(data)`.  `data` is the input map in its iteration
order; `relOrder` is the iteration order of the derived `relations` map in
the vertex-building loop (a permutation of its entries); `vertOrder` is the
iteration order of the `vertices` map in `tsort` (a permutation of its
keys). -/
def NewGraph (data relOrder : List (String × String)) (vertOrder : List String) :
    Except (List Err) Graph :=
  let (_, ids, errs) := buildRelations data
  if errs.isEmpty then
    let vs := buildVertices relOrder
    let (sorted, recursive, recursion) := tsort vs vertOrder
    let g : Graph := ⟨vs, ids, sorted, recursive, recursion⟩
    let verrs := validateGraph g
    if verrs.isEmpty then .ok g else .error verrs
  else .error errs

/-- Models `Graph.SortedIDs`: the sorted keys mapped back to their original
spellings. -/
def SortedIDs (g : Graph) : List String :=
  g.sorted.map (fun k => lookupD g.ids k "")

/-- `NewGraph` followed by `SortedIDs` — the package's end-to-end use. -/
def sortIDs (data relOrder : List (String × String)) (vertOrder : List String) :
    Except (List Err) (List String) :=
  (NewGraph data relOrder vertOrder).map SortedIDs

/-- The `relations` component of `buildRelations` (the `relations` map whose
iteration orders `relOrder` ranges over). -/
def relationsOf (data : List (String × String)) : List (String × String) :=
  (buildRelations data).1

/-- The key set of the built vertices map (whose iteration orders
`vertOrder` ranges over). -/
def vertexKeys (relOrder : List (String × String)) : List String :=
  (buildVertices relOrder).map Prod.fst

/-! ## The normalized relation graph

The relations map is a partial function from child to parent; the graph the
spec speaks about has an edge parent → child for every relation
(child, parent).  Cycles are cycles of the parent function. -/

/-- The parent of a child key under the normalized relations map. -/
def parentOf (rels : List (String × String)) (c : String) : Option String :=
  (rels.find? (fun e => e.1 == c)).map (fun e => e.2)

/-- `n`-fold iteration of `parentOf`. -/
def parentIter (rels : List (String × String)) : Nat → String → Option String
  | 0, k => some k
  | n + 1, k =>
    match parentOf rels k with
    | some p => parentIter rels n p
    | none => none

/-- A key lies on at least one cycle of the normalized relation graph:
following parent links some positive number of steps returns to it. -/
def OnCycle (rels : List (String × String)) (k : String) : Prop :=
  ∃ n : Nat, parentIter rels (n + 1) k = some k

/-! ## The general `MultiError` model (for `MultiError.Is`)

`MultiError` aggregates arbitrary Go errors, which may themselves be
aggregates; kind-matching must search through the nesting. -/

/-- A Go error value as relevant to this package: a sentinel
(`errors.New`), an error wrapping a sentinel (`fmt.Errorf("%w: ...")`), or
a `MultiError` aggregate (which may nest). -/
inductive GoError where
  | sentinel (k : ErrKind)
  | wrapped (k : ErrKind) (msg : String)
  | multi (errs : List GoError)

mutual

/-- Models `errors.Is(e, target)` for `target` one of the three sentinel
errors: direct equality for a sentinel, one `Unwrap` step for a wrapped
error, and the `Is` method for a `MultiError` (which scans its contents and
recurses through `errors.Is`). -/
def goErrorIs : GoError → ErrKind → Bool
  | .sentinel k, t => k == t
  | .wrapped k _, t => k == t
  | .multi es, t => goErrorAnyIs es t

/-- The scan inside `MultiError.Is`: `for each e in m, if errors.Is(e, target) return true; return false`. -/
def goErrorAnyIs : List GoError → ErrKind → Bool
  | [], _ => false
  | e :: rest, t => goErrorIs e t || goErrorAnyIs rest t

end

/-- Models `MultiError.Is` against a sentinel target. -/
def MultiErrorIs (m : List GoError) (target : ErrKind) : Bool :=
  goErrorAnyIs m target

/-- Spec-side (from the spec's words): an error contains — possibly through
nested aggregates — an error matching the given kind. -/
inductive ContainsKind (t : ErrKind) : GoError → Prop where
  | sentinel : ContainsKind t (.sentinel t)
  | wrapped (msg : String) : ContainsKind t (.wrapped t msg)
  | multi {es : List GoError} {e : GoError} (he : e ∈ es)
      (h : ContainsKind t e) : ContainsKind t (.multi es)

/-! ## Concrete inputs from the spec and the test suite -/

/-- `{Barbara: Nick, Nick: Sophie, Sophie: Jonas}`. -/
def exampleChain : List (String × String) :=
  [("Barbara", "Nick"), ("Nick", "Sophie"), ("Sophie", "Jonas")]

/-- `{Sophie: Jonas}`. -/
def exampleSingle : List (String × String) := [("Sophie", "Jonas")]

/-- `{Barbara: Nick, Nick: Sophie, Sophie: Jonas, Jonas: Barbara}`. -/
def exampleCycle : List (String × String) :=
  [("Barbara", "Nick"), ("Nick", "Sophie"), ("Sophie", "Jonas"), ("Jonas", "Barbara")]

/-- `{jONas: Jonas}`. -/
def exampleSelfFold : List (String × String) := [("jONas", "Jonas")]

/-- `{Jonas: Jonas}`. -/
def exampleSelf : List (String × String) := [("Jonas", "Jonas")]

/-- `{Barbara: Nick, Nick: Sophie, Sophie: Jonas, Ruby: Daniel}`. -/
def exampleTwoChains : List (String × String) :=
  [("Barbara", "Nick"), ("Nick", "Sophie"), ("Sophie", "Jonas"), ("Ruby", "Daniel")]

/-- A single connected rooted tree: root `rr`, children `aa` and `bb`,
grandchildren `cc` and `dd` under `aa`. -/
def exampleTree : List (String × String) :=
  [("cc", "aa"), ("dd", "aa"), ("aa", "rr"), ("bb", "rr")]

/-- `{a1: a1}`: an invalid name that is also a self-cycle. -/
def exampleInvalidCycle : List (String × String) := [("a1", "a1")]

/-- `{a: a}`: a too-short name that is also a self-cycle. -/
def exampleShortCycle : List (String × String) := [("a", "a")]

/-- `{A1: a1}`: two distinct invalid originals sharing one normalized key. -/
def exampleSharedInvalid : List (String × String) := [("A1", "a1")]

/-- The flattened sequence of original spellings in the order
`buildRelations` examines them (key before value, entry by entry). -/
def scanIDs : List (String × String) → List String
  | [] => []
  | (k, v) :: rest => k :: v :: scanIDs rest

/-- The originals that are the first encounter of their normalized
(lower-cased) key, given the normalized keys already seen. -/
def firstOriginalsFrom : List String → List String → List String
  | [], _ => []
  | x :: rest, seen =>
    if toLower x ∈ seen then firstOriginalsFrom rest seen
    else x :: firstOriginalsFrom rest (seen ++ [toLower x])

/-- The first-encountered original spelling of each normalized
(lower-cased) key, in the order `buildRelations` meets them. -/
def firstOriginals (data : List (String × String)) : List String :=
  firstOriginalsFrom (scanIDs data) []

instance {ε α : Type} [DecidableEq ε] [DecidableEq α] : DecidableEq (Except ε α) :=
  fun a b =>
    match a, b with
    | .ok x, .ok y =>
      if h : x = y then .isTrue (by rw [h]) else .isFalse (fun hc => h (Except.ok.inj hc))
    | .error x, .error y =>
      if h : x = y then .isTrue (by rw [h]) else .isFalse (fun hc => h (Except.error.inj hc))
    | .ok _, .error _ => .isFalse (fun hc => Except.noConfusion hc)
    | .error _, .ok _ => .isFalse (fun hc => Except.noConfusion hc)

/-! ## Graph-theory notions for cycles of the normalized relation graph -/

/-- The edge relation of the normalized relation graph: parent → child. -/
def EdgeOf (ro : List (String × String)) (p c : String) : Prop :=
  parentOf ro c = some p

/-- `iterK` is the `n`-th parent of `k`, defaulting to `k` (only used where
the iterate exists). -/
def iterK (ro : List (String × String)) (k : String) (i : Nat) : String :=
  (parentIter ro i k).getD k

/-- A closed, duplicate-free cycle of the normalized relation graph,
listed in edge order: each element is the parent of the next, the last is
the parent of the first. -/
def ClosedCycle (ro : List (String × String)) (cyc : List String) : Prop :=
  cyc ≠ [] ∧ cyc.Chain' (EdgeOf ro) ∧
  parentOf ro (cyc.head?.getD "") = some (cyc.getLast?.getD "") ∧ cyc.Nodup

/-- The canonical rotation of the cycle through `u`: `u` followed by its
parent iterates in descending order `p^(m-1) u, ..., p¹ u`. -/
def rotation (ro : List (String × String)) (u : String) (m : Nat) : List String :=
  u :: ((List.range (m - 1)).map (fun t => iterK ro u (m - 1 - t)))

instance (ro : List (String × String)) (u : String) :
    DecidablePred (fun n => parentIter ro (n + 1) u = some u) := fun n => by
  infer_instance

/-- The minimal positive period of a key on a cycle. -/
def period (ro : List (String × String)) (u : String) (h : OnCycle ro u) : Nat :=
  Nat.find h + 1


/-! ## Notions for the depth-first-search correctness development -/

/-- State evolution: visited only grows, recursion and the recursive flags
only receive appends. -/
def Extends (s s' : TState) : Prop :=
  (∀ x ∈ s.visited, x ∈ s'.visited) ∧
  (∃ d, s'.recursion = s.recursion ++ d) ∧
  (∃ d, s'.recursive = s.recursive ++ d)

/-- A run recorded by the sorter: the closing key followed by the full
closed cycle. -/
def IsCycleRun (ro : List (String × String)) (r : List String) : Prop :=
  ∃ cyc : List String, ClosedCycle ro cyc ∧ r = cyc.getLast?.getD "" :: cyc

/-- The recursion record grows only by whole cycle runs whose cycle extends
the current path. -/
def SoundAppends (ro : List (String × String)) (path : List String)
    (s s' : TState) : Prop :=
  ∃ runs : List (List String), s'.recursion = s.recursion ++ runs.join ∧
    ∀ r ∈ runs, IsCycleRun ro r ∧ path <+: r.tail

/-- Number of graph keys not yet visited (bounds the recursion depth). -/
def unvis (g : List (String × List String)) (s : TState) : Nat :=
  ((g.map Prod.fst).filter (fun k => decide (k ∉ s.visited))).length

/-- `x` is in the parent orbit of `u`. -/
def InOrbit (ro : List (String × String)) (u x : String) : Prop :=
  ∃ i, parentIter ro i u = some x

/-- Invariant holding between iterations of `tsort`'s outer loop: the
recursion record is a concatenation of cycle runs, with exactly one run
per cycle whose vertices are visited and none for unvisited cycles, and
visited cycles are visited in full. -/
def OuterInv (ro : List (String × String)) (s : TState) : Prop :=
  (∃ runs : List (List String), s.recursion = runs.join ∧
    (∀ r ∈ runs, IsCycleRun ro r) ∧
    (∀ u, OnCycle ro u →
      runs.countP (fun r => decide (u ∈ r.tail)) =
        (if u ∈ s.visited then 1 else 0))) ∧
  (∀ u, OnCycle ro u → u ∈ s.visited → ∀ x, InOrbit ro u x → x ∈ s.visited)

/-- The repeated first-encounter block of `buildRelations`
(`if _, ok := ids[s]; !ok { ids[s] = orig; validate }`), acting on the
`(ids, errs)` pair. -/
def ensureId (st : List (String × String) × List Err) (s orig : String) :
    List (String × String) × List Err :=
  if containsKey st.1 s then st
  else (st.1 ++ [(s, orig)],
    if validName orig then st.2 else st.2 ++ [Err.invalidName orig])

/-! ## Claims -/

/-- C10: for the empty input mapping, `NewGraph` returns a graph (not an
error) whose sorted sequence is empty — the zero-vertex graph triggers no
cyclic, multiple-roots or invalid-name error — and `SortedIDs` is empty. -/
theorem claim_C10_empty_input :
    NewGraph [] [] [] = .ok ⟨[], [], [], [], []⟩ ∧
    SortedIDs ⟨[], [], [], [], []⟩ = [] := by
  constructor <;> rfl

/-- C1: the claim fails on the code.  `exampleTree` has only valid names,
and its normalized relation graph is a single connected root tree (every
key's parent chain reaches the sole root `rr`, which has no parent), yet
`NewGraph` — with the vertices map iterated in insertion order — reports a
`multiple roots` error naming `rr` and `aa`, instead of succeeding. -/
theorem claim_C1_single_tree_rejected :
    (∀ kv ∈ exampleTree, validName kv.1 = true ∧ validName kv.2 = true) ∧
    (∀ k ∈ vertexKeys (relationsOf exampleTree),
      ∃ m < 5, parentIter (relationsOf exampleTree) m k = some "rr") ∧
    parentOf (relationsOf exampleTree) "rr" = none ∧
    sortIDs exampleTree (relationsOf exampleTree) (vertexKeys (relationsOf exampleTree)) =
      .error [Err.multipleRoots ["rr", "aa"]] := by
  refine ⟨by decide, by decide, by decide, by decide⟩

/-- C5: the claim fails on the code.  For the two-chain input there is an
iteration order of the vertices map (a permutation of its key set) under
which the root-counting heuristic detects only one root, so `NewGraph`
succeeds and returns a sorted sequence — no `multiple roots` error at
all. -/
theorem claim_C5_two_chains_accepted :
    (["barbara", "daniel", "jonas", "sophie", "nick", "ruby"] : List String).Perm
      (vertexKeys (relationsOf exampleTwoChains)) ∧
    sortIDs exampleTwoChains (relationsOf exampleTwoChains)
        ["barbara", "daniel", "jonas", "sophie", "nick", "ruby"] =
      .ok ["Jonas", "Sophie", "Nick", "Daniel", "Ruby", "Barbara"] := by
  refine ⟨by decide, by decide⟩

/-- C4 counterexample: for `{jONas: Jonas}` the recorded cycle path is
`["jonas", "jonas"]` — two elements, not a single-element path: no
single-key path is ever returned. -/
theorem claim_C4_counterexample :
    NewGraph exampleSelfFold (relationsOf exampleSelfFold)
        (vertexKeys (relationsOf exampleSelfFold)) =
      .error [Err.circular ["jonas", "jonas"]] ∧
    ∀ k : String,
      NewGraph exampleSelfFold (relationsOf exampleSelfFold)
          (vertexKeys (relationsOf exampleSelfFold)) ≠
        .error [Err.circular [k]] := by
  have h : NewGraph exampleSelfFold (relationsOf exampleSelfFold)
      (vertexKeys (relationsOf exampleSelfFold)) =
      .error [Err.circular ["jonas", "jonas"]] := by decide
  refine ⟨h, fun k hk => ?_⟩
  rw [h] at hk
  simp at hk

/-- C4 (amended): a key related to itself after case-folding is treated as
a cycle of length 1 — one parent step returns to the normalized key — and
`NewGraph` returns no graph but an error matching the cyclic kind, whose
recorded path is the normalized self-referencing key listed twice (once as
the detection point, once as the cycle head), mentioning no other key. -/
theorem claim_C4_self_loop :
    parentIter (relationsOf exampleSelfFold) 1 "jonas" = some "jonas" ∧
    NewGraph exampleSelfFold (relationsOf exampleSelfFold)
        (vertexKeys (relationsOf exampleSelfFold)) =
      .error [Err.circular ["jonas", "jonas"]] ∧
    NewGraph exampleSelf (relationsOf exampleSelf)
        (vertexKeys (relationsOf exampleSelf)) =
      .error [Err.circular ["jonas", "jonas"]] ∧
    errsIs [Err.circular ["jonas", "jonas"]] ErrKind.circular = true ∧
    (∀ x ∈ ["jonas", "jonas"], x = toLower "jONas") := by
  refine ⟨by decide, by decide, by decide, by decide, by decide⟩

set_option maxHeartbeats 4000000 in
/-- Enumeration of every iteration order of the three maps the pipeline
ranges over, for the three-relation chain input. -/
theorem chain_all_orders :
    ∀ d ∈ exampleChain.permutations', ∀ ro ∈ (relationsOf d).permutations',
      ∀ vo ∈ (vertexKeys ro).permutations',
      sortIDs d ro vo = .ok ["Jonas", "Sophie", "Nick", "Barbara"] := by
  decide

/-- Enumeration of every iteration order for the single-relation input. -/
theorem single_all_orders :
    ∀ d ∈ exampleSingle.permutations', ∀ ro ∈ (relationsOf d).permutations',
      ∀ vo ∈ (vertexKeys ro).permutations',
      sortIDs d ro vo = .ok ["Jonas", "Sophie"] := by
  decide

/-- C2: for `{Barbara: Nick, Nick: Sophie, Sophie: Jonas}` the pipeline
returns exactly `[Jonas, Sophie, Nick, Barbara]` with no error, and for
`{Sophie: Jonas}` exactly `[Jonas, Sophie]` with no error, for every
iteration order of the input map, of the derived relations map, and of the
vertices map. -/
theorem claim_C2_worked_examples :
    (∀ d ro vo, d.Perm exampleChain → ro.Perm (relationsOf d) →
      vo.Perm (vertexKeys ro) →
      sortIDs d ro vo = .ok ["Jonas", "Sophie", "Nick", "Barbara"]) ∧
    (∀ d ro vo, d.Perm exampleSingle → ro.Perm (relationsOf d) →
      vo.Perm (vertexKeys ro) →
      sortIDs d ro vo = .ok ["Jonas", "Sophie"]) := by
  constructor <;> intro d ro vo hd hro hvo
  · exact chain_all_orders d (List.mem_permutations'.mpr hd) ro
      (List.mem_permutations'.mpr hro) vo (List.mem_permutations'.mpr hvo)
  · exact single_all_orders d (List.mem_permutations'.mpr hd) ro
      (List.mem_permutations'.mpr hro) vo (List.mem_permutations'.mpr hvo)

/-- Witness for C2: the claim instantiated at the chain input with the
insertion iteration orders. -/
theorem claim_C2_witness :
    sortIDs exampleChain (relationsOf exampleChain)
        (vertexKeys (relationsOf exampleChain)) =
      .ok ["Jonas", "Sophie", "Nick", "Barbara"] :=
  claim_C2_worked_examples.1 _ _ _ (List.Perm.refl _) (List.Perm.refl _)
    (List.Perm.refl _)

/-- C3 counterexample: `{a: a}` has a cycle in its normalized relation
graph (a self-loop), yet `NewGraph` returns an aggregate that does NOT
match the cyclic kind — name validation fails first and only the
invalid-name error is reported. -/
theorem claim_C3_counterexample :
    parentIter (relationsOf exampleShortCycle) 1 "a" = some "a" ∧
    NewGraph exampleShortCycle (relationsOf exampleShortCycle)
        (vertexKeys (relationsOf exampleShortCycle)) =
      .error [Err.invalidName "a"] ∧
    errsIs [Err.invalidName "a"] ErrKind.circular = false := by
  refine ⟨by decide, by decide, by decide⟩

/-- C6 counterexample: in `{A1: a1}` both originals `A1` and `a1` are
invalid names, but only the first-encountered original of the shared
normalized key `a1` is validated: the aggregate is exactly
`[invalid name "A1"]` and no error names `a1`. -/
theorem claim_C6_counterexample :
    validName "a1" = false ∧
    (buildRelations exampleSharedInvalid).2.2 = [Err.invalidName "A1"] ∧
    Err.invalidName "a1" ∉ (buildRelations exampleSharedInvalid).2.2 ∧
    NewGraph exampleSharedInvalid (relationsOf exampleSharedInvalid)
        (vertexKeys (relationsOf exampleSharedInvalid)) =
      .error [Err.invalidName "A1"] := by
  refine ⟨by decide, by decide, by decide, by decide⟩

/-- `goErrorAnyIs` succeeds iff some element matches. -/
theorem goErrorAnyIs_iff (es : List GoError) (t : ErrKind) :
    goErrorAnyIs es t = true ↔ ∃ e ∈ es, goErrorIs e t = true := by
  induction es with
  | nil => simp [goErrorAnyIs]
  | cons e rest ih => simp [goErrorAnyIs, Bool.or_eq_true, ih]

/-- `errors.Is` against a sentinel kind agrees with the spec-side
contains-a-matching-error predicate, at every nesting depth (strong
induction on the error's size). -/
theorem goErrorIs_iff_aux (t : ErrKind) :
    ∀ n (e : GoError), sizeOf e ≤ n → (goErrorIs e t = true ↔ ContainsKind t e) := by
  intro n
  induction n with
  | zero =>
    intro e h
    cases e <;> simp at h
  | succ n ih =>
    intro e h
    cases e with
    | sentinel k =>
      simp only [goErrorIs, beq_iff_eq]
      constructor
      · rintro rfl; exact ContainsKind.sentinel
      · rintro hc; cases hc; rfl
    | wrapped k msg =>
      simp only [goErrorIs, beq_iff_eq]
      constructor
      · rintro rfl; exact ContainsKind.wrapped msg
      · rintro hc; cases hc; rfl
    | multi es =>
      have hes : sizeOf es ≤ n := by
        have : sizeOf (GoError.multi es) = 1 + sizeOf es := by simp
        omega
      simp only [goErrorIs, goErrorAnyIs_iff]
      constructor
      · rintro ⟨e, he, hz⟩
        have hse : sizeOf e ≤ n :=
          le_trans (le_of_lt (List.sizeOf_lt_of_mem he)) hes
        exact ContainsKind.multi he ((ih e hse).mp hz)
      · rintro hc
        cases hc with
        | multi he hz =>
          rename_i e'
          have hse : sizeOf e' ≤ n :=
            le_trans (le_of_lt (List.sizeOf_lt_of_mem he)) hes
          exact ⟨e', he, (ih e' hse).mpr hz⟩

/-- C9: `MultiError.Is` returns true for a target sentinel kind iff some
contained error matches that kind, where matching searches recursively
through nested aggregates. -/
theorem claim_C9_multierror_is (m : List GoError) (t : ErrKind) :
    MultiErrorIs m t = true ↔ ∃ e ∈ m, ContainsKind t e := by
  rw [MultiErrorIs, goErrorAnyIs_iff]
  constructor
  · rintro ⟨e, he, hz⟩
    exact ⟨e, he, (goErrorIs_iff_aux t (sizeOf e) e le_rfl).mp hz⟩
  · rintro ⟨e, he, hz⟩
    exact ⟨e, he, (goErrorIs_iff_aux t (sizeOf e) e le_rfl).mpr hz⟩

/-- C7 counterexample: `{a1: a1}` contains both an invalid name and a
cycle (a self-loop of the normalized graph), but the returned aggregate
contains only the invalid-name error — it does not match the cyclic kind,
because name validation fails fast before cycle detection runs. -/
theorem claim_C7_counterexample :
    parentIter (relationsOf exampleInvalidCycle) 1 "a1" = some "a1" ∧
    NewGraph exampleInvalidCycle (relationsOf exampleInvalidCycle)
        (vertexKeys (relationsOf exampleInvalidCycle)) =
      .error [Err.invalidName "a1"] ∧
    errsIs [Err.invalidName "a1"] ErrKind.invalidName = true ∧
    errsIs [Err.invalidName "a1"] ErrKind.circular = false := by
  refine ⟨by decide, by decide, by decide, by decide⟩

/-- `containsKey` is membership in the key column. -/
theorem containsKey_iff {α : Type} (l : List (String × α)) (k : String) :
    containsKey l k = true ↔ k ∈ l.map Prod.fst := by
  simp only [containsKey, List.any_eq_true, beq_iff_eq, List.mem_map]

/-- The error column of the `buildRelations` fold, for any starting state:
one invalid-name error per first-encountered original that fails
validation, appended in processing order. -/
theorem buildRel_foldl_err (data : List (String × String)) :
    ∀ rels ids err,
      (data.foldl buildRelStep (rels, ids, err)).2.2 =
        err ++ ((firstOriginalsFrom (scanIDs data) (ids.map Prod.fst)).filter
          (fun s => !validName s)).map Err.invalidName := by
  induction data with
  | nil => intro rels ids err; simp [scanIDs, firstOriginalsFrom]
  | cons kv rest ih =>
    rcases kv with ⟨k, v⟩
    intro rels ids err
    rw [List.foldl_cons]
    show (rest.foldl buildRelStep (buildRelStep (rels, ids, err) (k, v))).2.2 = _
    simp only [buildRelStep, scanIDs, firstOriginalsFrom]
    by_cases hk : containsKey ids (toLower k)
    · have hk' : toLower k ∈ ids.map Prod.fst := (containsKey_iff _ _).mp hk
      by_cases hv : containsKey ids (toLower v)
      · have hv' : toLower v ∈ ids.map Prod.fst := (containsKey_iff _ _).mp hv
        simp [hk, hk', hv, hv', ih]
      · have hv' : ¬ toLower v ∈ ids.map Prod.fst := fun h =>
          hv ((containsKey_iff _ _).mpr h)
        by_cases hvv : validName v <;>
          simp [hk, hk', hv, hv', hvv, ih, List.filter_cons, List.append_assoc]
    · have hk' : ¬ toLower k ∈ ids.map Prod.fst := fun h => hk ((containsKey_iff _ _).mpr h)
      by_cases hv : containsKey (ids ++ [(toLower k, k)]) (toLower v)
      · have hv' : toLower v ∈ ids.map Prod.fst ++ [toLower k] := by
          have := (containsKey_iff _ _).mp hv
          simpa using this
        by_cases hkk : validName k <;>
          simp [hk, hk', hv, hv', hkk, ih, List.filter_cons, List.append_assoc]
      · have hv' : ¬ toLower v ∈ ids.map Prod.fst ++ [toLower k] := by
          intro h
          exact hv ((containsKey_iff _ _).mpr (by simpa using h))
        by_cases hkk : validName k <;> by_cases hvv : validName v <;>
          simp [hk, hk', hv, hv', hkk, hvv, ih, List.filter_cons, List.append_assoc]

/-- A non-empty name-validation error list is returned by `NewGraph`
verbatim. -/
theorem NewGraph_error_of_buildRel (data ro : List (String × String))
    (vo : List String) (h : (buildRelations data).2.2 ≠ []) :
    NewGraph data ro vo = .error (buildRelations data).2.2 := by
  unfold NewGraph
  rcases hbr : buildRelations data with ⟨rels, ids, errs⟩
  rw [hbr] at h
  simp only
  rw [if_neg]
  intro hb
  exact h (List.isEmpty_iff.mp hb)

/-- C6 (amended): the invalid-name errors of a call are exactly one error
per first-encountered original spelling of each normalized key that fails
validation (non-alphabetic or shorter than 2), naming that original, in
processing order — all in the one returned aggregate; originals whose
normalized key was already seen are not validated again. -/
theorem claim_C6_first_encounter_validation :
    ∀ data ro : List (String × String), ∀ vo : List String,
      (buildRelations data).2.2 =
        ((firstOriginals data).filter (fun s => !validName s)).map Err.invalidName ∧
      ((buildRelations data).2.2 ≠ [] →
        NewGraph data ro vo = .error ((buildRelations data).2.2)) := by
  intro data ro vo
  constructor
  · have := buildRel_foldl_err data [] [] []
    simpa [buildRelations, firstOriginals] using this
  · exact NewGraph_error_of_buildRel data ro vo

/-- Witness for C6: at `{A1: a1}`, the aggregate is exactly the
first-encounter filter, and `NewGraph` returns it. -/
theorem claim_C6_witness :
    (buildRelations exampleSharedInvalid).2.2 =
      ((firstOriginals exampleSharedInvalid).filter
        (fun s => !validName s)).map Err.invalidName ∧
    NewGraph exampleSharedInvalid (relationsOf exampleSharedInvalid)
        (vertexKeys (relationsOf exampleSharedInvalid)) =
      .error ((buildRelations exampleSharedInvalid).2.2) :=
  ⟨(claim_C6_first_encounter_validation exampleSharedInvalid
      (relationsOf exampleSharedInvalid)
      (vertexKeys (relationsOf exampleSharedInvalid))).1,
    (claim_C6_first_encounter_validation exampleSharedInvalid
      (relationsOf exampleSharedInvalid)
      (vertexKeys (relationsOf exampleSharedInvalid))).2 (by decide)⟩

/-- Every error of `validateGraph` is a cyclic or multiple-roots error. -/
theorem validateGraph_kinds (g : Graph) :
    ∀ e ∈ validateGraph g, e.kind = ErrKind.circular ∨ e.kind = ErrKind.multipleRoots := by
  intro e he
  simp only [validateGraph] at he
  split at he
  · rcases List.mem_append.mp he with h | h
    · rcases List.mem_map.mp h with ⟨xs, _, rfl⟩
      exact Or.inl rfl
    · rcases List.mem_singleton.mp h with rfl
      exact Or.inr rfl
  · rcases List.mem_map.mp he with ⟨xs, _, rfl⟩
    exact Or.inl rfl

/-- An error returned by `NewGraph` is either the (non-empty) name-phase
aggregate or the (non-empty) graph-validation aggregate. -/
theorem NewGraph_error_cases (data ro : List (String × String)) (vo : List String)
    (es : List Err) (h : NewGraph data ro vo = .error es) :
    (es = (buildRelations data).2.2 ∧ es ≠ []) ∨
      ((buildRelations data).2.2 = [] ∧ es ≠ [] ∧
        ∀ e ∈ es, e.kind = ErrKind.circular ∨ e.kind = ErrKind.multipleRoots) := by
  unfold NewGraph at h
  rcases hbr : buildRelations data with ⟨rels, ids, errs⟩
  rw [hbr] at h
  simp only at h
  by_cases hb : errs.isEmpty
  · rw [if_pos hb] at h
    rcases hts : tsort (buildVertices ro) vo with ⟨sorted, recursive, recursion⟩
    rw [hts] at h
    simp only at h
    right
    split at h
    · exact Except.noConfusion h
    · rename_i hv
      injection h with h
      subst h
      refine ⟨List.isEmpty_iff.mp hb, ?_, ?_⟩
      · intro hnil
        rw [hnil] at hv
        exact hv rfl
      · exact validateGraph_kinds _
  · rw [if_neg hb] at h
    injection h with h
    subst h
    left
    refine ⟨rfl, ?_⟩
    intro hnil
    rw [hnil] at hb
    exact hb rfl

/-- C7 (amended): the errors of a single call are aggregated per phase
into the one returned value — all invalid-name errors together, or (when
every name passes) all cyclic and multiple-roots errors together — but
name validation preempts graph validation: when any name error exists only
invalid-name errors are returned, so an input with both an invalid name
and a cycle yields an aggregate without the cyclic error. -/
theorem claim_C7_per_phase_aggregation :
    ∀ (data ro : List (String × String)) (vo : List String) (es : List Err),
      NewGraph data ro vo = .error es →
      es ≠ [] ∧
      ((∀ e ∈ es, e.kind = ErrKind.invalidName) ∨
        ((buildRelations data).2.2 = [] ∧
          ∀ e ∈ es, e.kind = ErrKind.circular ∨ e.kind = ErrKind.multipleRoots)) := by
  intro data ro vo es h
  rcases NewGraph_error_cases data ro vo es h with ⟨heq, hne⟩ | ⟨hb, hne, hkinds⟩
  · refine ⟨hne, Or.inl ?_⟩
    intro e he
    rw [heq] at he
    have hchar : (buildRelations data).2.2 =
        ((firstOriginals data).filter (fun s => !validName s)).map Err.invalidName := by
      have := buildRel_foldl_err data [] [] []
      simpa [buildRelations, firstOriginals] using this
    rw [hchar] at he
    rcases List.mem_map.mp he with ⟨s, _, rfl⟩
    rfl
  · exact ⟨hne, Or.inr ⟨hb, hkinds⟩⟩

/-- Witness for C7: instantiated at `{a1: a1}`, whose aggregate is the
single invalid-name error. -/
theorem claim_C7_witness :
    ([Err.invalidName "a1"] : List Err) ≠ [] ∧
    ((∀ e ∈ ([Err.invalidName "a1"] : List Err), e.kind = ErrKind.invalidName) ∨
      ((buildRelations exampleInvalidCycle).2.2 = [] ∧
        ∀ e ∈ ([Err.invalidName "a1"] : List Err),
          e.kind = ErrKind.circular ∨ e.kind = ErrKind.multipleRoots)) :=
  claim_C7_per_phase_aggregation exampleInvalidCycle (relationsOf exampleInvalidCycle)
    (vertexKeys (relationsOf exampleInvalidCycle)) [Err.invalidName "a1"] (by decide)

/-! ## Cycle and orbit lemmas -/

theorem parentIter_add (ro : List (String × String)) (a b : Nat) (k : String) :
    parentIter ro (a + b) k = (parentIter ro a k).bind (parentIter ro b) := by
  induction a generalizing k with
  | zero => simp [parentIter]
  | succ n ih =>
    have h1 : n + 1 + b = (n + b) + 1 := by omega
    rw [h1]
    show (match parentOf ro k with
      | some p => parentIter ro (n + b) p
      | none => none) = _
    cases hp : parentOf ro k with
    | none => simp [parentIter, hp]
    | some p => simp [parentIter, hp, ih]

/-- On a cycle, every parent iterate exists. -/
theorem parentIter_isSome_of_onCycle (ro : List (String × String)) (k : String)
    (m : Nat) (hm : parentIter ro m k = some k) (i : Nat) (hi : i ≤ m) :
    parentIter ro i (k) ≠ none := by
  intro hnone
  have : parentIter ro m k = none := by
    have h1 : m = i + (m - i) := by omega
    rw [h1, parentIter_add, hnone]
    rfl
  rw [hm] at this
  exact Option.noConfusion this

/-- Iterates on a cycle wrap around: for a period `m`, the `(i+j)`-th
iterate equals the `((i+j) mod m)`-th. -/
theorem parentIter_mod (ro : List (String × String)) (k : String) (m : Nat)
    (hm0 : 0 < m) (hm : parentIter ro m k = some k) (i : Nat) :
    parentIter ro i k = parentIter ro (i % m) k := by
  induction i using Nat.strong_induction_on with
  | _ i ih =>
    by_cases hlt : i < m
    · rw [Nat.mod_eq_of_lt hlt]
    · push_neg at hlt
      have h1 : i = m + (i - m) := by omega
      have h2 : parentIter ro i k = parentIter ro (i - m) k := by
        conv_lhs => rw [h1]
        rw [parentIter_add, hm]
        rfl
      rw [h2, ih (i - m) (by omega)]
      congr 1
      exact (Nat.mod_eq_sub_mod hlt).symm

/-- Any reachable-from relation along edges corresponds to a parent
iterate backwards: if `y` is reachable from `x`, then iterating parents
from `y` reaches `x`. -/
theorem reach_parentIter (ro : List (String × String)) {x y : String}
    (h : Relation.ReflTransGen (EdgeOf ro) x y) :
    ∃ i, parentIter ro i y = some x := by
  induction h with
  | refl => exact ⟨0, rfl⟩
  | tail hxz hzy ih =>
    rename_i b c
    rcases ih with ⟨i, hi⟩
    refine ⟨1 + i, ?_⟩
    rw [parentIter_add]
    have h1 : parentIter ro 1 c = some b := by
      show (match parentOf ro c with
        | some p => parentIter ro 0 p
        | none => none) = some b
      rw [hzy]
      rfl
    rw [h1]
    exact hi

theorem parentIter_one (ro : List (String × String)) (k : String) :
    parentIter ro 1 k = parentOf ro k := by
  show (match parentOf ro k with
    | some p => parentIter ro 0 p
    | none => none) = parentOf ro k
  cases hp : parentOf ro k <;> rfl

/-- Cycle membership transfers along parent iterates, staying on the same
orbit: if `y` is on a cycle with period `m` and `x = pⁱ y`, then `x` is on
a cycle and `y` is an iterate of `x`. -/
theorem onCycle_iterate (ro : List (String × String)) {y x : String} {m i : Nat}
    (hm0 : 0 < m) (hm : parentIter ro m y = some y)
    (hi : parentIter ro i y = some x) :
    (∃ j, 0 < j ∧ parentIter ro j x = some x) ∧ (∃ j, parentIter ro j x = some y) := by
  -- reduce i modulo m
  have hi' : parentIter ro (i % m) y = some x := by
    rw [← parentIter_mod ro y m hm0 hm]; exact hi
  set d := i % m with hd
  have hdm : d < m := Nat.mod_lt _ hm0
  have hxy : parentIter ro (m - d) x = some y := by
    have : parentIter ro (d + (m - d)) y = some y := by
      have : d + (m - d) = m := by omega
      rw [this]; exact hm
    rw [parentIter_add, hi'] at this
    exact this
  constructor
  · refine ⟨m, hm0, ?_⟩
    have h1 : parentIter ro ((m - d) + d) x = some x := by
      rw [parentIter_add, hxy]
      exact hi'
    have h2 : (m - d) + d = m := by omega
    rwa [h2] at h1
  · exact ⟨m - d, hxy⟩

/-- On an orbit, an element is determined by its parent: two orbit
elements with the same parent coincide. -/
theorem orbit_parent_unique (ro : List (String × String)) {y c c' a : String}
    {m i j : Nat} (hm0 : 0 < m) (hm : parentIter ro m y = some y)
    (hi : parentIter ro i y = some c) (hj : parentIter ro j y = some c')
    (hc : parentOf ro c = some a) (hc' : parentOf ro c' = some a) : c = c' := by
  have key : ∀ {z : String} {u : Nat}, parentIter ro u y = some z →
      parentOf ro z = some a → some z = parentIter ro (m - 1) a := by
    intro z u hu hz
    have h1 : parentIter ro (m + u) y = some z := by
      rw [parentIter_add, hm, Option.some_bind]; exact hu
    have h2 : m + u = (u + 1) + (m - 1) := by omega
    have h3 : parentIter ro ((u + 1) + (m - 1)) y = parentIter ro (m - 1) a := by
      rw [parentIter_add]
      have h4 : parentIter ro (u + 1) y = some a := by
        rw [parentIter_add, hu, Option.some_bind, parentIter_one]
        exact hz
      rw [h4]
      rfl
    rw [h2, h3] at h1
    exact h1.symm
  have e1 := key hi hc
  have e2 := key hj hc'
  rw [← e2] at e1
  exact Option.some.inj e1

theorem closedCycle_get_parent (ro : List (String × String)) {cyc : List String}
    (h : ClosedCycle ro cyc) (i : Nat) (hi : i + 1 < cyc.length) :
    parentOf ro (cyc.get ⟨i + 1, hi⟩) = some (cyc.get ⟨i, by omega⟩) := by
  rcases h with ⟨hne, hch, hcl, hnd⟩
  have := List.chain'_iff_get.mp hch i (by omega)
  exact this

theorem closedCycle_back_iter (ro : List (String × String)) {cyc : List String}
    (h : ClosedCycle ro cyc) :
    ∀ d j (hj : j < cyc.length) (hd : d ≤ j),
      parentIter ro d (cyc.get ⟨j, hj⟩) = some (cyc.get ⟨j - d, by omega⟩) := by
  intro d
  induction d with
  | zero => intro j hj hd; simp [parentIter]
  | succ e ih =>
    intro j hj hd
    have hj1 : j - 1 + 1 = j := by omega
    have hpar : parentOf ro (cyc.get ⟨j, hj⟩) = some (cyc.get ⟨j - 1, by omega⟩) := by
      have h2 := closedCycle_get_parent ro h (j - 1)
        (by omega : j - 1 + 1 < cyc.length)
      have h3 : (⟨j - 1 + 1, by omega⟩ : Fin cyc.length) = ⟨j, hj⟩ :=
        Fin.ext (by simpa using hj1)
      rw [h3] at h2
      exact h2
    have hstep : parentIter ro (e + 1) (cyc.get ⟨j, hj⟩) =
        parentIter ro e (cyc.get ⟨j - 1, by omega⟩) := by
      show (match parentOf ro (cyc.get ⟨j, hj⟩) with
        | some p => parentIter ro e p
        | none => none) = _
      rw [hpar]
    rw [hstep, ih (j - 1) (by omega) (by omega)]
    have h4 : (⟨j - 1 - e, by omega⟩ : Fin cyc.length) = ⟨j - (e + 1), by omega⟩ :=
      Fin.ext (by simp; omega)
    rw [h4]

theorem head_getD_eq_get {α : Type} (l : List α) (h : l ≠ []) (d : α) :
    l.head?.getD d = l.get ⟨0, List.length_pos.mpr h⟩ := by
  cases l with
  | nil => exact absurd rfl h
  | cons a t => rfl

theorem getLast_getD_eq_get {α : Type} (l : List α) (h : l ≠ []) (d : α) :
    l.getLast?.getD d = l.get ⟨l.length - 1, by
      have := List.length_pos.mpr h
      omega⟩ := by
  rw [List.getLast?_eq_getLast l h, Option.getD_some, List.getLast_eq_get]

/-- Going one step past the list start wraps to the last element. -/
theorem closedCycle_wrap (ro : List (String × String)) {cyc : List String}
    (h : ClosedCycle ro cyc) (j : Nat) (hj : j < cyc.length) :
    parentIter ro (j + 1) (cyc.get ⟨j, hj⟩) =
      some (cyc.get ⟨cyc.length - 1, by omega⟩) := by
  have hne : cyc ≠ [] := h.1
  have h0 : parentIter ro j (cyc.get ⟨j, hj⟩) = some (cyc.get ⟨0, by omega⟩) := by
    have := closedCycle_back_iter ro h j j hj le_rfl
    simpa using this
  rw [parentIter_add, h0, Option.some_bind, parentIter_one]
  have hcl := h.2.2.1
  rw [head_getD_eq_get cyc hne, getLast_getD_eq_get cyc hne] at hcl
  exact hcl

/-- The head of a closed cycle is periodic with period the cycle length. -/
theorem closedCycle_head_period (ro : List (String × String)) {cyc : List String}
    (h : ClosedCycle ro cyc) :
    parentIter ro cyc.length (cyc.get ⟨0, List.length_pos.mpr h.1⟩) =
      some (cyc.get ⟨0, List.length_pos.mpr h.1⟩) := by
  have hne : cyc ≠ [] := h.1
  have hpos : 0 < cyc.length := List.length_pos.mpr hne
  have h1 := closedCycle_wrap ro h 0 hpos
  have h2 := closedCycle_back_iter ro h (cyc.length - 1) (cyc.length - 1)
    (by omega) le_rfl
  rw [show (0 + 1 : Nat) = 1 from rfl] at h1
  have key : parentIter ro (1 + (cyc.length - 1)) (cyc.get ⟨0, hpos⟩) =
      some (cyc.get ⟨0, hpos⟩) := by
    rw [parentIter_add, h1, Option.some_bind, h2]
    have h4 : (⟨cyc.length - 1 - (cyc.length - 1), by omega⟩ : Fin cyc.length) =
        ⟨0, hpos⟩ := Fin.ext (by simp)
    rw [h4]
  have h5 : 1 + (cyc.length - 1) = cyc.length := by omega
  rwa [h5] at key

/-- Every member of a closed cycle is a parent iterate of the head. -/
theorem closedCycle_get_iterate_head (ro : List (String × String)) {cyc : List String}
    (h : ClosedCycle ro cyc) (j : Nat) (hj : j < cyc.length) :
    parentIter ro (1 + (cyc.length - 1 - j)) (cyc.get ⟨0, by omega⟩) =
      some (cyc.get ⟨j, hj⟩) := by
  have hpos : 0 < cyc.length := by omega
  have h1 := closedCycle_wrap ro h 0 hpos
  rw [show (0 + 1 : Nat) = 1 from rfl] at h1
  have h2 := closedCycle_back_iter ro h (cyc.length - 1 - j) (cyc.length - 1)
    (by omega) (by omega)
  rw [parentIter_add, h1, Option.some_bind, h2]
  have h4 : (⟨cyc.length - 1 - (cyc.length - 1 - j), by omega⟩ : Fin cyc.length) =
      ⟨j, hj⟩ := Fin.ext (by simp; omega)
  rw [h4]

/-- Parent iterates of the head stay inside the closed cycle. -/
theorem closedCycle_iterate_mem (ro : List (String × String)) {cyc : List String}
    (h : ClosedCycle ro cyc) (i : Nat) {w : String}
    (hw : parentIter ro i (cyc.get ⟨0, List.length_pos.mpr h.1⟩) = some w) :
    w ∈ cyc := by
  have hpos : 0 < cyc.length := List.length_pos.mpr h.1
  rw [parentIter_mod ro _ cyc.length hpos (closedCycle_head_period ro h)] at hw
  rcases Nat.eq_zero_or_pos (i % cyc.length) with hz | hp
  · rw [hz] at hw
    have : w = cyc.get ⟨0, hpos⟩ := by
      simpa [parentIter] using hw.symm
    rw [this]
    exact List.get_mem _ _ _
  · set d := i % cyc.length with hd
    have hdlt : d < cyc.length := Nat.mod_lt _ hpos
    have h1 := closedCycle_wrap ro h 0 hpos
    rw [show (0 + 1 : Nat) = 1 from rfl] at h1
    have h2 := closedCycle_back_iter ro h (d - 1) (cyc.length - 1) (by omega) (by omega)
    have h3 : d = 1 + (d - 1) := by omega
    rw [h3, parentIter_add, h1, Option.some_bind, h2] at hw
    have : w = cyc.get ⟨cyc.length - 1 - (d - 1), by omega⟩ := by
      exact (Option.some.inj hw).symm
    rw [this]
    exact List.get_mem _ _ _

/-- Every member of a closed cycle is periodic with period the cycle
length. -/
theorem closedCycle_mem_period (ro : List (String × String)) {cyc : List String}
    (h : ClosedCycle ro cyc) {z : String} (hz : z ∈ cyc) :
    parentIter ro cyc.length z = some z := by
  rcases List.mem_iff_get.mp hz with ⟨⟨j, hj⟩, rfl⟩
  have hA := closedCycle_back_iter ro h j j hj le_rfl
  have hC := closedCycle_get_iterate_head ro h j hj
  have hsplit : cyc.length = j + (1 + (cyc.length - 1 - j)) := by omega
  have h0 : (⟨j - j, by omega⟩ : Fin cyc.length) = ⟨0, by omega⟩ :=
    Fin.ext (by simp)
  rw [h0] at hA
  have key : parentIter ro (j + (1 + (cyc.length - 1 - j))) (cyc.get ⟨j, hj⟩) =
      some (cyc.get ⟨j, hj⟩) := by
    rw [parentIter_add, hA, Option.some_bind]
    exact hC
  rwa [← hsplit] at key

/-- Membership in a closed cycle is exactly membership in the parent orbit
of any of its members. -/
theorem closedCycle_mem_iff_orbit (ro : List (String × String)) {cyc : List String}
    (h : ClosedCycle ro cyc) {z : String} (hz : z ∈ cyc) (w : String) :
    w ∈ cyc ↔ ∃ i, parentIter ro i z = some w := by
  rcases List.mem_iff_get.mp hz with ⟨⟨jz, hjz⟩, hzeq⟩
  have hA : parentIter ro jz (cyc.get ⟨jz, hjz⟩) = some (cyc.get ⟨0, by omega⟩) := by
    have := closedCycle_back_iter ro h jz jz hjz le_rfl
    have h0 : (⟨jz - jz, by omega⟩ : Fin cyc.length) = ⟨0, by omega⟩ :=
      Fin.ext (by simp)
    rwa [h0] at this
  constructor
  · intro hw
    rcases List.mem_iff_get.mp hw with ⟨⟨j, hj⟩, hweq⟩
    have hC := closedCycle_get_iterate_head ro h j hj
    refine ⟨jz + (1 + (cyc.length - 1 - j)), ?_⟩
    rw [← hzeq, parentIter_add, hA, Option.some_bind, ← hweq]
    exact hC
  · rintro ⟨i, hi⟩
    have hC := closedCycle_get_iterate_head ro h jz hjz
    have : parentIter ro ((1 + (cyc.length - 1 - jz)) + i) (cyc.get ⟨0, by omega⟩) =
        some w := by
      rw [parentIter_add, hC, Option.some_bind, hzeq]
      exact hi
    exact closedCycle_iterate_mem ro h _ this

/-- Every member of a closed cycle lies on a cycle. -/
theorem closedCycle_mem_onCycle (ro : List (String × String)) {cyc : List String}
    (h : ClosedCycle ro cyc) {z : String} (hz : z ∈ cyc) : OnCycle ro z := by
  have hpos : 0 < cyc.length := List.length_pos.mpr h.1
  refine ⟨cyc.length - 1, ?_⟩
  have := closedCycle_mem_period ro h hz
  rwa [show cyc.length - 1 + 1 = cyc.length by omega]

theorem rotation_length (ro : List (String × String)) (u : String) (m : Nat)
    (hm : 0 < m) : (rotation ro u m).length = m := by
  simp [rotation]
  omega

theorem rotation_get_zero (ro : List (String × String)) (u : String) (m : Nat)
    (h0 : 0 < (rotation ro u m).length) :
    (rotation ro u m).get ⟨0, h0⟩ = u := rfl

theorem rotation_get_succ (ro : List (String × String)) (u : String) (m : Nat)
    (i : Nat) (hi : i + 1 < (rotation ro u m).length) :
    (rotation ro u m).get ⟨i + 1, hi⟩ = iterK ro u (m - 1 - i) := by
  simp [rotation]

theorem period_pos (ro : List (String × String)) (u : String) (h : OnCycle ro u) :
    0 < period ro u h := Nat.succ_pos _

theorem period_spec (ro : List (String × String)) (u : String) (h : OnCycle ro u) :
    parentIter ro (period ro u h) u = some u := Nat.find_spec h

theorem period_min (ro : List (String × String)) (u : String) (h : OnCycle ro u)
    (q : Nat) (h1 : 0 < q) (h2 : q < period ro u h) :
    parentIter ro q u ≠ some u := by
  have := Nat.find_min h (show q - 1 < Nat.find h by
    unfold period at h2; omega)
  rwa [show q - 1 + 1 = q by omega] at this

theorem parentIter_eq_iterK (ro : List (String × String)) (u : String)
    (h : OnCycle ro u) (i : Nat) (hi : i ≤ period ro u h) :
    parentIter ro i u = some (iterK ro u i) := by
  have hne := parentIter_isSome_of_onCycle ro u (period ro u h) (period_spec ro u h) i hi
  cases hp : parentIter ro i u with
  | none => exact absurd hp hne
  | some w => simp [iterK, hp]

/-- Uniform indexing: element `i` of the rotation is `p^(m-i) u`. -/
theorem rotation_get_eq (ro : List (String × String)) (u : String)
    (h : OnCycle ro u) (i : Nat)
    (hi : i < (rotation ro u (period ro u h)).length) :
    (rotation ro u (period ro u h)).get ⟨i, hi⟩ = iterK ro u (period ro u h - i) := by
  set m := period ro u h with hm
  rcases Nat.eq_zero_or_pos i with rfl | hpos
  · rw [rotation_get_zero]
    have : parentIter ro (m - 0) u = some (iterK ro u (m - 0)) :=
      parentIter_eq_iterK ro u h _ (by omega)
    rw [Nat.sub_zero] at this ⊢
    have hspec := period_spec ro u h
    rw [← hm] at hspec
    rw [hspec] at this
    simpa [iterK] using (Option.some.inj this)
  · obtain ⟨j, rfl⟩ : ∃ j, i = j + 1 := ⟨i - 1, by omega⟩
    rw [rotation_get_succ]
    congr 1
    have := rotation_length ro u m (period_pos ro u h)
    omega

theorem iterK_zero (ro : List (String × String)) (u : String) : iterK ro u 0 = u := rfl

theorem iterK_period (ro : List (String × String)) (u : String) (h : OnCycle ro u) :
    iterK ro u (period ro u h) = u := by
  have := period_spec ro u h
  simp [iterK, this]

theorem parentOf_iterK_succ (ro : List (String × String)) (u : String)
    (h : OnCycle ro u) (a : Nat) (ha : a + 1 ≤ period ro u h) :
    parentOf ro (iterK ro u a) = some (iterK ro u (a + 1)) := by
  have h1 := parentIter_eq_iterK ro u h (a + 1) ha
  have h2 := parentIter_eq_iterK ro u h a (by omega)
  rw [parentIter_add, h2, Option.some_bind, parentIter_one] at h1
  exact h1

theorem rotation_closedCycle (ro : List (String × String)) (u : String)
    (h : OnCycle ro u) :
    ClosedCycle ro (rotation ro u (period ro u h)) ∧
      (rotation ro u (period ro u h)).head? = some u := by
  have hm0 : 0 < period ro u h := period_pos ro u h
  have hlen : (rotation ro u (period ro u h)).length = period ro u h :=
    rotation_length ro u (period ro u h) hm0
  have hne : rotation ro u (period ro u h) ≠ [] := by simp [rotation]
  have hinj : ∀ a b : Nat, a < b → b < period ro u h →
      iterK ro u (period ro u h - a) = iterK ro u (period ro u h - b) → False := by
    intro a b hab hb heq
    have hts : period ro u h - b < period ro u h - a := by omega
    have ht1 : 1 ≤ period ro u h - b := by omega
    have hsm : period ro u h - a ≤ period ro u h := by omega
    have h1 := parentIter_eq_iterK ro u h (period ro u h - a) hsm
    have h2 := parentIter_eq_iterK ro u h (period ro u h - b) (by omega)
    rw [heq] at h1
    rw [← h2] at h1
    have hq : parentIter ro ((period ro u h - b) +
        (period ro u h - (period ro u h - a))) u = some u := by
      have hm' := period_spec ro u h
      have hsplit : period ro u h = (period ro u h - a) +
          (period ro u h - (period ro u h - a)) := by omega
      rw [hsplit, parentIter_add, h1, ← parentIter_add] at hm'
      exact hm'
    have := period_min ro u h ((period ro u h - b) +
      (period ro u h - (period ro u h - a))) (by omega) (by omega)
    exact this hq
  refine ⟨⟨hne, ?_, ?_, ?_⟩, ?_⟩
  · rw [List.chain'_iff_get]
    intro i hi
    have hi1 : i + 1 < (rotation ro u (period ro u h)).length := by omega
    have hii : i < (rotation ro u (period ro u h)).length := by omega
    show EdgeOf ro _ _
    rw [EdgeOf, rotation_get_eq ro u h i hii, rotation_get_eq ro u h (i + 1) hi1]
    have hstep := parentOf_iterK_succ ro u h (period ro u h - (i + 1))
      (by omega)
    rwa [show period ro u h - (i + 1) + 1 = period ro u h - i from by omega] at hstep
  · rw [head_getD_eq_get _ hne, getLast_getD_eq_get _ hne]
    rw [rotation_get_eq ro u h 0 (List.length_pos.mpr hne),
      rotation_get_eq ro u h ((rotation ro u (period ro u h)).length - 1)
        (by omega)]
    rw [Nat.sub_zero, iterK_period]
    have hlast : period ro u h - ((rotation ro u (period ro u h)).length - 1) = 1 := by
      omega
    rw [hlast]
    have hstep := parentOf_iterK_succ ro u h 0 (by omega)
    rwa [iterK_zero] at hstep
  · rw [List.nodup_iff_injective_get]
    rintro ⟨a, ha⟩ ⟨b, hb⟩ heq
    rw [rotation_get_eq ro u h a ha, rotation_get_eq ro u h b hb] at heq
    rcases Nat.lt_trichotomy a b with hlt | heqq | hgt
    · exact absurd heq (fun he => hinj a b hlt (by omega) he)
    · exact Fin.ext heqq
    · exact absurd heq.symm (fun he => hinj b a hgt (by omega) he)
  · rfl

/-! ## The depth-first-search correctness development -/

theorem visit_zero (g : List (String × List String)) (id : String)
    (anc : List String) (s : TState) : visit g 0 id anc s = s := rfl

theorem visit_visited (g : List (String × List String)) (fuel : Nat) (id : String)
    (anc : List String) (s : TState) (h : id ∈ s.visited) :
    visit g (fuel + 1) id anc s = s := by
  simp [visit, h]

theorem visit_not_visited (g : List (String × List String)) (fuel : Nat)
    (id : String) (anc : List String) (s : TState) (h : id ∉ s.visited) :
    visit g (fuel + 1) id anc s =
      { visitAfters g fuel id (lookupD g id []) (anc ++ [id])
          { s with visited := id :: s.visited } with
        sorted := id :: (visitAfters g fuel id (lookupD g id []) (anc ++ [id])
          { s with visited := id :: s.visited }).sorted } := by
  simp [visit, h, visitAfters]

theorem visitAfters_nil (g : List (String × List String)) (fuel : Nat)
    (id : String) (anc : List String) (s : TState) :
    visitAfters g fuel id [] anc s = s := rfl

theorem visitAfters_cons (g : List (String × List String)) (fuel : Nat)
    (id a : String) (l anc : List String) (s : TState) :
    visitAfters g fuel id (a :: l) anc s =
      visitAfters g fuel id l anc
        (if a ∈ anc then
          { s with recursive := s.recursive ++ (id :: anc),
                   recursion := s.recursion ++ (id :: anc) }
        else visit g fuel a anc s) := rfl

theorem extends_rfl (s : TState) : Extends s s :=
  ⟨fun _ h => h, ⟨[], by simp⟩, ⟨[], by simp⟩⟩

theorem extends_trans {a b c : TState} (h1 : Extends a b) (h2 : Extends b c) :
    Extends a c := by
  obtain ⟨v1, ⟨d1, e1⟩, ⟨f1, g1⟩⟩ := h1
  obtain ⟨v2, ⟨d2, e2⟩, ⟨f2, g2⟩⟩ := h2
  exact ⟨fun x hx => v2 x (v1 x hx), ⟨d1 ++ d2, by rw [e2, e1, List.append_assoc]⟩,
    ⟨f1 ++ f2, by rw [g2, g1, List.append_assoc]⟩⟩

theorem visit_extends (g : List (String × List String)) : ∀ fuel : Nat,
    (∀ id anc s, Extends s (visit g fuel id anc s)) ∧
    (∀ id l anc s, Extends s (visitAfters g fuel id l anc s)) := by
  intro fuel
  induction fuel with
  | zero =>
    constructor
    · intro id anc s
      exact extends_rfl s
    · intro id l
      induction l with
      | nil => intro anc s; exact extends_rfl s
      | cons a rest ih =>
        intro anc s
        rw [visitAfters_cons]
        refine extends_trans ?_ (ih anc _)
        split
        · exact ⟨fun x hx => hx, ⟨id :: anc, by simp⟩, ⟨id :: anc, by simp⟩⟩
        · exact extends_rfl s
  | succ f ihf =>
    have hv : ∀ id anc s, Extends s (visit g (f + 1) id anc s) := by
      intro id anc s
      by_cases h : id ∈ s.visited
      · rw [visit_visited g f id anc s h]
        exact extends_rfl s
      · rw [visit_not_visited g f id anc s h]
        have h1 : Extends s { s with visited := id :: s.visited } :=
          ⟨fun x hx => List.mem_cons_of_mem _ hx, ⟨[], by simp⟩, ⟨[], by simp⟩⟩
        have h2 := ihf.2 id (lookupD g id []) (anc ++ [id])
          { s with visited := id :: s.visited }
        refine extends_trans (extends_trans h1 h2) ?_
        exact ⟨fun x hx => hx, ⟨[], by simp⟩, ⟨[], by simp⟩⟩
    have hva : ∀ id l anc s, Extends s (visitAfters g (f + 1) id l anc s) := by
      intro id l
      induction l with
      | nil => intro anc s; exact extends_rfl s
      | cons a rest ih =>
        intro anc s
        rw [visitAfters_cons]
        refine extends_trans ?_ (ih anc _)
        split
        · exact ⟨fun x hx => hx, ⟨id :: anc, by simp⟩, ⟨id :: anc, by simp⟩⟩
        · exact hv a anc s
    exact ⟨hv, hva⟩

/-- `recursive` and `recursion` receive identical appends throughout. -/
theorem visit_rec_sync (g : List (String × List String)) : ∀ fuel : Nat,
    (∀ id anc s, s.recursive = s.recursion →
      (visit g fuel id anc s).recursive = (visit g fuel id anc s).recursion) ∧
    (∀ id l anc s, s.recursive = s.recursion →
      (visitAfters g fuel id l anc s).recursive =
        (visitAfters g fuel id l anc s).recursion) := by
  intro fuel
  induction fuel with
  | zero =>
    constructor
    · intro id anc s h
      exact h
    · intro id l
      induction l with
      | nil => intro anc s h; exact h
      | cons a rest ih =>
        intro anc s h
        rw [visitAfters_cons]
        refine ih anc _ ?_
        split
        · simp [h]
        · exact h
  | succ f ihf =>
    have hv : ∀ id anc s, s.recursive = s.recursion →
        (visit g (f + 1) id anc s).recursive = (visit g (f + 1) id anc s).recursion := by
      intro id anc s h
      by_cases hm : id ∈ s.visited
      · rw [visit_visited g f id anc s hm]
        exact h
      · rw [visit_not_visited g f id anc s hm]
        exact ihf.2 id (lookupD g id []) (anc ++ [id]) _ h
    have hva : ∀ id l anc s, s.recursive = s.recursion →
        (visitAfters g (f + 1) id l anc s).recursive =
          (visitAfters g (f + 1) id l anc s).recursion := by
      intro id l
      induction l with
      | nil => intro anc s h; exact h
      | cons a rest ih =>
        intro anc s h
        rw [visitAfters_cons]
        refine ih anc _ ?_
        split
        · simp [h]
        · exact hv a anc s h
    exact ⟨hv, hva⟩

end Toposort

namespace Toposort

/-- At a back-edge detection, the repeated key is necessarily the first
element of the ancestor path: every vertex has at most one parent, so an
inner path element's in-edge comes from its path predecessor. -/
theorem back_edge_head (ro : List (String × String)) {l : List String} {v a : String}
    (hch : List.Chain' (EdgeOf ro) l) (hnd : l.Nodup)
    (hlast : l.getLast?.getD "" = v) (hne : l ≠ [])
    (hedge : EdgeOf ro v a) (hmem : a ∈ l) :
    l.head?.getD "" = a := by
  rcases List.mem_iff_get.mp hmem with ⟨⟨j, hj⟩, haeq⟩
  have hpos : 0 < l.length := List.length_pos.mpr hne
  rcases Nat.eq_zero_or_pos j with rfl | hjpos
  · rw [head_getD_eq_get l hne, ← haeq]
  · exfalso
    have hchain := List.chain'_iff_get.mp hch (j - 1) (by omega)
    rw [getLast_getD_eq_get l hne] at hlast
    have hj1 : (⟨j - 1 + 1, by omega⟩ : Fin l.length) = ⟨j, hj⟩ :=
      Fin.ext (by simp; omega)
    rw [hj1] at hchain
    rw [haeq] at hchain
    -- hchain : EdgeOf ro (l.get ⟨j-1,_⟩) a ; hedge : EdgeOf ro v a
    have hvv : l.get ⟨j - 1, by omega⟩ = v := by
      have h1 : some (l.get ⟨j - 1, by omega⟩) = some v := by
        rw [← hchain, ← hedge]
      exact Option.some.inj h1
    rw [← hlast] at hvv
    have hinj := List.nodup_iff_injective_get.mp hnd hvv
    have := Fin.val_eq_of_eq hinj
    simp at this
    omega

theorem soundAppends_refl (ro : List (String × String)) (path : List String)
    (s : TState) : SoundAppends ro path s s :=
  ⟨[], by simp, by simp⟩

theorem soundAppends_trans {ro : List (String × String)} {path : List String}
    {a b c : TState} (h1 : SoundAppends ro path a b) (h2 : SoundAppends ro path b c) :
    SoundAppends ro path a c := by
  obtain ⟨r1, e1, p1⟩ := h1
  obtain ⟨r2, e2, p2⟩ := h2
  refine ⟨r1 ++ r2, ?_, ?_⟩
  · rw [e2, e1]
    simp [List.append_assoc]
  · intro r hr
    rcases List.mem_append.mp hr with h | h
    · exact p1 r h
    · exact p2 r h

theorem soundAppends_mono {ro : List (String × String)} {path path' : List String}
    {a b : TState} (hp : path' <+: path) (h : SoundAppends ro path a b) :
    SoundAppends ro path' a b := by
  obtain ⟨r1, e1, p1⟩ := h
  exact ⟨r1, e1, fun r hr => ⟨(p1 r hr).1, hp.trans (p1 r hr).2⟩⟩

end Toposort

namespace Toposort

/-- Soundness of cycle detection: under the in-degree-one edge structure,
every run the sorter appends is a full closed cycle extending the path at
the time of the call. -/
theorem visit_sound (ro : List (String × String)) (g : List (String × List String))
    (hAft : ∀ p c, c ∈ lookupD g p [] ↔ EdgeOf ro p c) : ∀ fuel : Nat,
    (∀ id anc s, List.Chain' (EdgeOf ro) (anc ++ [id]) → (anc ++ [id]).Nodup →
      (∀ a ∈ anc, a ∈ s.visited) →
      SoundAppends ro (anc ++ [id]) s (visit g fuel id anc s)) ∧
    (∀ id l anc s, List.Chain' (EdgeOf ro) anc → anc.Nodup →
      anc.getLast?.getD "" = id → anc ≠ [] →
      (∀ a ∈ l, EdgeOf ro id a) →
      (∀ a ∈ anc, a ∈ s.visited) →
      SoundAppends ro anc s (visitAfters g fuel id l anc s)) := by
  intro fuel
  induction fuel with
  | zero =>
    constructor
    · intro id anc s _ _ _
      exact soundAppends_refl ro _ s
    · intro id l
      induction l with
      | nil => intro anc s _ _ _ _ _ _; exact soundAppends_refl ro _ s
      | cons a rest ih =>
        intro anc s hch hnd hlast hne hl hv
        rw [visitAfters_cons]
        have hstep : SoundAppends ro anc s
            (if a ∈ anc then
              { s with recursive := s.recursive ++ (id :: anc),
                       recursion := s.recursion ++ (id :: anc) }
            else visit g 0 a anc s) := by
          split
          · rename_i hmem
            refine ⟨[id :: anc], by simp, ?_⟩
            intro r hr
            rcases List.mem_singleton.mp hr with rfl
            have hhead := back_edge_head ro hch hnd hlast hne
              (hl a (List.mem_cons_self a rest)) hmem
            refine ⟨⟨anc, ⟨hne, hch, ?_, hnd⟩, by rw [hlast]⟩, by simp⟩
            rw [hhead, hlast]
            exact hl a (List.mem_cons_self a rest)
          · exact soundAppends_refl ro _ s
        refine soundAppends_trans hstep ?_
        exact ih anc _ hch hnd hlast hne (fun x hx => hl x (List.mem_cons_of_mem _ hx))
          (fun x hx => by
            split
            · exact hv x hx
            · exact hv x hx)
        -- visited condition must hold for the new state
  | succ f ihf =>
    have hv : ∀ id anc s, List.Chain' (EdgeOf ro) (anc ++ [id]) →
        (anc ++ [id]).Nodup → (∀ a ∈ anc, a ∈ s.visited) →
        SoundAppends ro (anc ++ [id]) s (visit g (f + 1) id anc s) := by
      intro id anc s hch hnd hanc
      by_cases h : id ∈ s.visited
      · rw [visit_visited g f id anc s h]
        exact soundAppends_refl ro _ s
      · rw [visit_not_visited g f id anc s h]
        have h2 := ihf.2 id (lookupD g id []) (anc ++ [id])
          { s with visited := id :: s.visited } hch hnd
          (by simp [List.getLast?_append])
          (by simp)
          (fun a ha => (hAft id a).mp ha)
          (by
            intro a ha
            rcases List.mem_append.mp ha with h1 | h1
            · exact List.mem_cons_of_mem _ (hanc a h1)
            · rcases List.mem_singleton.mp h1 with rfl
              exact List.mem_cons_self _ _)
        refine soundAppends_trans ?_ (soundAppends_trans h2 (soundAppends_refl ro _ _))
        exact ⟨[], by simp, by simp⟩
    have hva : ∀ id l anc s, List.Chain' (EdgeOf ro) anc → anc.Nodup →
        anc.getLast?.getD "" = id → anc ≠ [] →
        (∀ a ∈ l, EdgeOf ro id a) → (∀ a ∈ anc, a ∈ s.visited) →
        SoundAppends ro anc s (visitAfters g (f + 1) id l anc s) := by
      intro id l
      induction l with
      | nil => intro anc s _ _ _ _ _ _; exact soundAppends_refl ro _ s
      | cons a rest ih =>
        intro anc s hch hnd hlast hne hl hvis
        rw [visitAfters_cons]
        by_cases hmem : a ∈ anc
        · rw [if_pos hmem]
          have hstep : SoundAppends ro anc s
              { s with recursive := s.recursive ++ (id :: anc),
                       recursion := s.recursion ++ (id :: anc) } := by
            refine ⟨[id :: anc], by simp, ?_⟩
            intro r hr
            rcases List.mem_singleton.mp hr with rfl
            have hhead := back_edge_head ro hch hnd hlast hne
              (hl a (List.mem_cons_self a rest)) hmem
            refine ⟨⟨anc, ⟨hne, hch, ?_, hnd⟩, by rw [hlast]⟩, by simp⟩
            rw [hhead, hlast]
            exact hl a (List.mem_cons_self a rest)
          refine soundAppends_trans hstep ?_
          exact ih anc _ hch hnd hlast hne
            (fun x hx => hl x (List.mem_cons_of_mem _ hx)) (fun x hx => hvis x hx)
        · rw [if_neg hmem]
          have hlast' : anc.getLast? = some id := by
            rw [List.getLast?_eq_getLast anc hne] at hlast ⊢
            rw [Option.getD_some] at hlast
            rw [hlast]
          have hcha : List.Chain' (EdgeOf ro) (anc ++ [a]) := by
            apply List.Chain'.append hch (List.chain'_singleton a)
            intro x hx y hy
            rw [hlast'] at hx
            have hxid : x = id := by
              have := Option.mem_def.mp hx
              exact (Option.some.inj this.symm)
            have hya : y = a := by
              have := Option.mem_def.mp hy
              simpa using this.symm
            rw [hxid, hya]
            exact hl a (List.mem_cons_self a rest)
          have hnda : (anc ++ [a]).Nodup := by
            simp [List.nodup_append, hnd, hmem]
          have h2 := hv a anc s hcha hnda hvis
          have h3 : SoundAppends ro anc s (visit g (f + 1) a anc s) :=
            soundAppends_mono (List.prefix_append anc [a]) h2
          refine soundAppends_trans h3 ?_
          refine ih anc _ hch hnd hlast hne
            (fun x hx => hl x (List.mem_cons_of_mem _ hx)) ?_
          intro x hx
          exact ((visit_extends g (f + 1)).1 a anc s).1 x (hvis x hx)
    exact ⟨hv, hva⟩

end Toposort

namespace Toposort

theorem filter_not_mem_mono (l vis vis' : List String)
    (h : ∀ x ∈ vis, x ∈ vis') :
    (l.filter (fun k => decide (k ∉ vis'))).length ≤
      (l.filter (fun k => decide (k ∉ vis))).length := by
  apply List.Sublist.length_le
  apply List.monotone_filter_right
  intro a ha
  simp only [decide_eq_true_eq] at ha ⊢
  exact fun hc => ha (h a hc)

theorem unvis_mono (g : List (String × List String)) {s s' : TState}
    (h : ∀ x ∈ s.visited, x ∈ s'.visited) : unvis g s' ≤ unvis g s :=
  filter_not_mem_mono _ _ _ h

theorem filter_not_mem_mark (l : List String) (vis : List String) (id : String)
    (hid : id ∈ l) (hnv : id ∉ vis) :
    (l.filter (fun k => decide (k ∉ id :: vis))).length <
      (l.filter (fun k => decide (k ∉ vis))).length := by
  induction l with
  | nil => simp at hid
  | cons a t ih =>
    rcases List.mem_cons.mp hid with rfl | hmem
    · simp only [List.filter_cons]
      have h1 : (decide (id ∉ id :: vis)) = false := by simp
      have h2 : (decide (id ∉ vis)) = true := by simp [hnv]
      rw [h1, h2]
      simp only [if_false, if_true, Bool.false_eq_true, ite_false, ite_true,
        List.length_cons]
      have := filter_not_mem_mono t vis (id :: vis)
        (fun x hx => List.mem_cons_of_mem _ hx)
      omega
    · simp only [List.filter_cons]
      by_cases ha : a ∈ vis
      · have h1 : (decide (a ∉ id :: vis)) = false := by
          simp [List.mem_cons, ha]
        have h2 : (decide (a ∉ vis)) = false := by simp [ha]
        rw [h1, h2]
        simpa using ih hmem
      · by_cases haid : a = id
        · subst haid
          have h1 : (decide (a ∉ a :: vis)) = false := by simp
          have h2 : (decide (a ∉ vis)) = true := by simp [ha]
          rw [h1, h2]
          simp only [Bool.false_eq_true, ite_false, ite_true, List.length_cons]
          have := filter_not_mem_mono t vis (a :: vis)
            (fun x hx => List.mem_cons_of_mem _ hx)
          omega

        · have h1 : (decide (a ∉ id :: vis)) = true := by
            simp [List.mem_cons, ha, haid]
          have h2 : (decide (a ∉ vis)) = true := by simp [ha]
          rw [h1, h2]
          simpa using ih hmem

theorem unvis_mark (g : List (String × List String)) (s : TState) (id : String)
    (hid : id ∈ g.map Prod.fst) (hnv : id ∉ s.visited) :
    unvis g { s with visited := id :: s.visited } < unvis g s :=
  filter_not_mem_mark _ _ _ hid hnv

end Toposort

namespace Toposort

/-- Newly visited vertices are reachable from the visit's start. -/
theorem visit_reach (ro : List (String × String)) (g : List (String × List String))
    (hAft : ∀ p c, c ∈ lookupD g p [] ↔ EdgeOf ro p c) : ∀ fuel : Nat,
    (∀ id anc s x, x ∈ (visit g fuel id anc s).visited →
      x ∈ s.visited ∨ Relation.ReflTransGen (EdgeOf ro) id x) ∧
    (∀ id l anc s x, x ∈ (visitAfters g fuel id l anc s).visited →
      x ∈ s.visited ∨ ∃ a ∈ l, Relation.ReflTransGen (EdgeOf ro) a x) := by
  intro fuel
  induction fuel with
  | zero =>
    constructor
    · intro id anc s x hx
      exact Or.inl hx
    · intro id l
      induction l with
      | nil => intro anc s x hx; exact Or.inl hx
      | cons a rest ih =>
        intro anc s x hx
        rw [visitAfters_cons] at hx
        rcases ih anc _ x hx with h | ⟨b, hb, hr⟩
        · split at h
          · exact Or.inl h
          · exact Or.inl h
        · exact Or.inr ⟨b, List.mem_cons_of_mem _ hb, hr⟩
  | succ f ihf =>
    have hv : ∀ id anc s x, x ∈ (visit g (f + 1) id anc s).visited →
        x ∈ s.visited ∨ Relation.ReflTransGen (EdgeOf ro) id x := by
      intro id anc s x hx
      by_cases h : id ∈ s.visited
      · rw [visit_visited g f id anc s h] at hx
        exact Or.inl hx
      · rw [visit_not_visited g f id anc s h] at hx
        simp only at hx
        rcases ihf.2 id (lookupD g id []) (anc ++ [id])
            { s with visited := id :: s.visited } x hx with h1 | ⟨a, ha, hr⟩
        · rcases List.mem_cons.mp h1 with rfl | h2
          · exact Or.inr Relation.ReflTransGen.refl
          · exact Or.inl h2
        · refine Or.inr (Relation.ReflTransGen.trans ?_ hr)
          exact Relation.ReflTransGen.single ((hAft id a).mp ha)
    have hva : ∀ id l anc s x, x ∈ (visitAfters g (f + 1) id l anc s).visited →
        x ∈ s.visited ∨ ∃ a ∈ l, Relation.ReflTransGen (EdgeOf ro) a x := by
      intro id l
      induction l with
      | nil => intro anc s x hx; exact Or.inl hx
      | cons a rest ih =>
        intro anc s x hx
        rw [visitAfters_cons] at hx
        rcases ih anc _ x hx with h | ⟨b, hb, hr⟩
        · split at h
          · exact Or.inl h
          · rcases hv a anc s x h with h2 | h2
            · exact Or.inl h2
            · exact Or.inr ⟨a, List.mem_cons_self a rest, h2⟩
        · exact Or.inr ⟨b, List.mem_cons_of_mem _ hb, hr⟩
    exact ⟨hv, hva⟩

end Toposort

namespace Toposort

theorem inOrbit_refl (ro : List (String × String)) (u : String) : InOrbit ro u u :=
  ⟨0, rfl⟩

theorem inOrbit_trans {ro : List (String × String)} {u x y : String}
    (h1 : InOrbit ro u x) (h2 : InOrbit ro x y) : InOrbit ro u y := by
  obtain ⟨i, hi⟩ := h1
  obtain ⟨j, hj⟩ := h2
  exact ⟨i + j, by rw [parentIter_add, hi, Option.some_bind, hj]⟩

/-- A closed cycle's members are its head's orbit. -/
theorem closedCycle_mem_iff_orbit_head (ro : List (String × String))
    {cyc : List String} (h : ClosedCycle ro cyc) (w : String) :
    w ∈ cyc ↔ InOrbit ro (cyc.head?.getD "") w := by
  have hne := h.1
  have hpos := List.length_pos.mpr hne
  have hmem : cyc.head?.getD "" ∈ cyc := by
    rw [head_getD_eq_get cyc hne]
    exact List.get_mem _ _ _
  exact closedCycle_mem_iff_orbit ro h hmem w

/-- A visit from a vertex not on any cycle records nothing. -/
theorem visit_no_runs_nil (ro : List (String × String))
    (g : List (String × List String))
    (hAft : ∀ p c, c ∈ lookupD g p [] ↔ EdgeOf ro p c) (fuel : Nat) (k : String)
    (s : TState) (hk : ¬ OnCycle ro k) :
    (visit g fuel k [] s).recursion = s.recursion := by
  obtain ⟨runs, he, hr⟩ := (visit_sound ro g hAft fuel).1 k [] s
    (by simp) (by simp) (by simp)
  have hnil : runs = [] := by
    rw [List.eq_nil_iff_forall_not_mem]
    intro r hmem
    obtain ⟨⟨cyc, hcyc, hreq⟩, hpre⟩ := hr r hmem
    rw [hreq] at hpre
    simp only [List.tail_cons] at hpre
    obtain ⟨t, ht⟩ := hpre
    have hkc : k ∈ cyc := by
      rw [← ht]
      simp
    exact hk (closedCycle_mem_onCycle ro hcyc hkc)
  rw [hnil] at he
  simpa using he

/-- A visit into a subtree hanging off the current path appends no run,
when the subtree root is off the orbit the path head lies on. -/
theorem visit_no_runs_detour (ro : List (String × String))
    (g : List (String × List String))
    (hAft : ∀ p c, c ∈ lookupD g p [] ↔ EdgeOf ro p c) (fuel : Nat)
    (b u : String) (anc : List String) (s : TState)
    (hch : List.Chain' (EdgeOf ro) (anc ++ [b])) (hnd : (anc ++ [b]).Nodup)
    (hvis : ∀ a ∈ anc, a ∈ s.visited) (hne : anc ≠ [])
    (hhead : InOrbit ro u (anc.head?.getD ""))
    (hb : ¬ InOrbit ro u b) :
    (visit g fuel b anc s).recursion = s.recursion := by
  obtain ⟨runs, he, hr⟩ := (visit_sound ro g hAft fuel).1 b anc s hch hnd hvis
  have hnil : runs = [] := by
    rw [List.eq_nil_iff_forall_not_mem]
    intro r hmem
    obtain ⟨⟨cyc, hcyc, hreq⟩, hpre⟩ := hr r hmem
    rw [hreq] at hpre
    simp only [List.tail_cons] at hpre
    obtain ⟨t, ht⟩ := hpre
    have hbc : b ∈ cyc := by
      rw [← ht]
      simp
    have hheads : cyc.head?.getD "" = anc.head?.getD "" := by
      rw [← ht]
      cases anc with
      | nil => exact absurd rfl hne
      | cons a t2 => rfl
    have := (closedCycle_mem_iff_orbit_head ro hcyc b).mp hbc
    rw [hheads] at this
    exact hb (inOrbit_trans hhead this)
  rw [hnil] at he
  simpa using he

/-- A visit from `b` off the orbit of `u` never visits an orbit member of
`u`. -/
theorem visit_visited_off_orbit (ro : List (String × String))
    (g : List (String × List String))
    (hAft : ∀ p c, c ∈ lookupD g p [] ↔ EdgeOf ro p c) (fuel : Nat)
    (b u : String) (anc : List String) (s : TState)
    (hb : ¬ InOrbit ro u b) :
    ∀ x ∈ (visit g fuel b anc s).visited, x ∈ s.visited ∨ ¬ InOrbit ro u x := by
  intro x hx
  rcases (visit_reach ro g hAft fuel).1 b anc s x hx with h | h
  · exact Or.inl h
  · right
    intro hux
    obtain ⟨i, hi⟩ := reach_parentIter ro h
    exact hb (inOrbit_trans hux ⟨i, hi⟩)

/-- A visit from a vertex not on any cycle never visits a vertex on a
cycle. -/
theorem visit_visited_nocycle (ro : List (String × String))
    (g : List (String × List String))
    (hAft : ∀ p c, c ∈ lookupD g p [] ↔ EdgeOf ro p c) (fuel : Nat)
    (k : String) (anc : List String) (s : TState) (hk : ¬ OnCycle ro k) :
    ∀ x ∈ (visit g fuel k anc s).visited, x ∈ s.visited ∨ ¬ OnCycle ro x := by
  intro x hx
  rcases (visit_reach ro g hAft fuel).1 k anc s x hx with h | h
  · exact Or.inl h
  · right
    intro hcx
    obtain ⟨i, hi⟩ := reach_parentIter ro h
    obtain ⟨n, hn⟩ := hcx
    have := onCycle_iterate ro (Nat.succ_pos n) hn hi
    obtain ⟨⟨j, hj0, hjx⟩, _⟩ := this
    exact hk ⟨j - 1, by rwa [show j - 1 + 1 = j by omega]⟩
  
end Toposort

namespace Toposort

/-- OnCycle phrased with an explicit positive period. -/
theorem onCycle_def' {ro : List (String × String)} {u : String} (h : OnCycle ro u) :
    ∃ m, 0 < m ∧ parentIter ro m u = some u := by
  obtain ⟨n, hn⟩ := h
  exact ⟨n + 1, Nat.succ_pos n, hn⟩

/-- A vertex on a cycle lies in the orbit of its parent. -/
theorem onCycle_parent_orbit {ro : List (String × String)} {b hd : String}
    (hb : OnCycle ro b) (hpar : parentOf ro b = some hd) : InOrbit ro hd b := by
  obtain ⟨m, hm0, hm⟩ := onCycle_def' hb
  have h1 : parentIter ro 1 b = some hd := by rw [parentIter_one]; exact hpar
  exact ((onCycle_iterate ro hm0 hm h1).2 : ∃ j, parentIter ro j hd = some b)

/-- A detour visit (from a child `b` of an on-orbit vertex, with `b` off
the orbit) never visits any vertex that lies on a cycle. -/
theorem visit_visited_detour_nocycle (ro : List (String × String))
    (g : List (String × List String))
    (hAft : ∀ p c, c ∈ lookupD g p [] ↔ EdgeOf ro p c) (fuel : Nat)
    (b hd u : String) (anc : List String) (s : TState)
    (hb : ¬ InOrbit ro u b) (hbpar : parentOf ro b = some hd)
    (hhd : InOrbit ro u hd) :
    ∀ x ∈ (visit g fuel b anc s).visited, x ∈ s.visited ∨ ¬ OnCycle ro x := by
  intro x hx
  rcases (visit_reach ro g hAft fuel).1 b anc s x hx with h | h
  · exact Or.inl h
  · right
    intro hcx
    obtain ⟨i, hi⟩ := reach_parentIter ro h
    obtain ⟨m, hm0, hm⟩ := onCycle_def' hcx
    have hcb : OnCycle ro b := by
      obtain ⟨⟨j, hj0, hj⟩, _⟩ := onCycle_iterate ro hm0 hm hi
      exact ⟨j - 1, by rwa [show j - 1 + 1 = j by omega]⟩
    exact hb (inOrbit_trans hhd (onCycle_parent_orbit hcb hbpar))

/-- Effect of scanning a run of off-orbit children: nothing is recorded,
and no cycle vertex is visited. -/
theorem treeFold (ro : List (String × String)) (g : List (String × List String))
    (hAft : ∀ p c, c ∈ lookupD g p [] ↔ EdgeOf ro p c) (fuel : Nat)
    (hd u : String) (anc : List String)
    (hanc : ∀ a ∈ anc, InOrbit ro u a)
    (hch : List.Chain' (EdgeOf ro) anc) (hnd : anc.Nodup)
    (hlast : anc.getLast?.getD "" = hd) (hne : anc ≠ []) :
    ∀ (L : List String) (t : TState),
      (∀ b ∈ L, EdgeOf ro hd b ∧ ¬ InOrbit ro u b) →
      (∀ a ∈ anc, a ∈ t.visited) →
      (visitAfters g fuel hd L anc t).recursion = t.recursion ∧
      (∀ x ∈ (visitAfters g fuel hd L anc t).visited,
        x ∈ t.visited ∨ ¬ OnCycle ro x) := by
  intro L
  induction L with
  | nil => intro t _ _; exact ⟨rfl, fun x hx => Or.inl hx⟩
  | cons b rest ih =>
    intro t hL hvis
    rw [visitAfters_cons]
    have hbprop := hL b (List.mem_cons_self b rest)
    have hmem : b ∉ anc := fun hc => hbprop.2 (hanc b hc)
    rw [if_neg hmem]
    have hhd : InOrbit ro u hd := by
      have : hd ∈ anc := by
        rw [← hlast, getLast_getD_eq_get anc hne]
        exact List.get_mem _ _ _
      exact hanc hd this
    have hcha : List.Chain' (EdgeOf ro) (anc ++ [b]) := by
      apply List.Chain'.append hch (List.chain'_singleton b)
      intro x hx y hy
      have hlast' : anc.getLast? = some hd := by
        rw [List.getLast?_eq_getLast anc hne] at hlast ⊢
        rw [Option.getD_some] at hlast
        rw [hlast]
      rw [hlast'] at hx
      have hxid : x = hd := Option.some.inj (Option.mem_def.mp hx).symm
      have hya : y = b := by
        have := Option.mem_def.mp hy
        simpa using this.symm
      rw [hxid, hya]
      exact hbprop.1
    have hnda : (anc ++ [b]).Nodup := by
      simp [List.nodup_append, hnd, hmem]
    have hheadorb : InOrbit ro u (anc.head?.getD "") := by
      apply hanc
      rw [head_getD_eq_get anc hne]
      exact List.get_mem _ _ _
    have hrec : (visit g fuel b anc t).recursion = t.recursion :=
      visit_no_runs_detour ro g hAft fuel b u anc t hcha hnda hvis hne hheadorb
        hbprop.2
    have hvisd := visit_visited_detour_nocycle ro g hAft fuel b hd u anc t
      hbprop.2 hbprop.1 hhd
    have hvis' : ∀ a ∈ anc, a ∈ (visit g fuel b anc t).visited := fun a ha =>
      ((visit_extends g fuel).1 b anc t).1 a (hvis a ha)
    obtain ⟨ihrec, ihvis⟩ := ih (visit g fuel b anc t)
      (fun x hx => hL x (List.mem_cons_of_mem _ hx)) hvis'
    refine ⟨by rw [ihrec, hrec], ?_⟩
    intro x hx
    rcases ihvis x hx with h | h
    · rcases hvisd x h with h2 | h2
      · exact Or.inl h2
      · exact Or.inr h2
    · exact Or.inr h

end Toposort

namespace Toposort

theorem visitAfters_append (g : List (String × List String)) (fuel : Nat)
    (id : String) (l1 l2 anc : List String) (s : TState) :
    visitAfters g fuel id (l1 ++ l2) anc s =
      visitAfters g fuel id l2 anc (visitAfters g fuel id l1 anc s) := by
  simp [visitAfters, List.foldl_append]

theorem onCycle_parent_isSome {ro : List (String × String)} {a : String}
    (h : OnCycle ro a) : ∃ p, parentOf ro a = some p := by
  obtain ⟨n, hn⟩ := h
  cases hp : parentOf ro a with
  | none =>
    exfalso
    have : parentIter ro (n + 1) a = none := by
      show (match parentOf ro a with
        | some p => parentIter ro n p
        | none => none) = none
      rw [hp]
    rw [hn] at this
    exact Option.noConfusion this
  | some p => exact ⟨p, rfl⟩

/-- The walk around a cycle: visiting the first unvisited cycle vertex
with the already-visited cycle prefix as ancestors marks the whole cycle
visited, records exactly one run — the closing vertex followed by the full
cycle — and visits no vertex of any other cycle. -/
theorem walk (ro : List (String × String)) (g : List (String × List String))
    (hAft : ∀ p c, c ∈ lookupD g p [] ↔ EdgeOf ro p c)
    (hAftN : ∀ p, (lookupD g p []).Nodup)
    (hKeys : ∀ p c, EdgeOf ro p c → c ∈ g.map Prod.fst)
    {cyc : List String} (hcyc : ClosedCycle ro cyc) :
    ∀ (todo done : List String) (fuel : Nat) (s : TState),
      cyc = done ++ todo → todo ≠ [] →
      (∀ a ∈ done, a ∈ s.visited) → (∀ a ∈ todo, a ∉ s.visited) →
      unvis g s < fuel →
      (visit g fuel (todo.head?.getD "") done s).recursion =
        s.recursion ++ (cyc.getLast?.getD "" :: cyc) ∧
      (∀ a ∈ cyc, a ∈ (visit g fuel (todo.head?.getD "") done s).visited) ∧
      (∀ x ∈ (visit g fuel (todo.head?.getD "") done s).visited,
        x ∈ s.visited ∨ x ∈ cyc ∨ ¬ OnCycle ro x) := by
  have hcne : cyc ≠ [] := hcyc.1
  have huin : cyc.head?.getD "" ∈ cyc := by
    rw [head_getD_eq_get cyc hcne]
    exact List.get_mem _ _ _
  have hperiod : parentIter ro cyc.length (cyc.head?.getD "") =
      some (cyc.head?.getD "") := closedCycle_mem_period ro hcyc huin
  have hcpos : 0 < cyc.length := List.length_pos.mpr hcne
  have hcycKeys : ∀ a ∈ cyc, a ∈ g.map Prod.fst := by
    intro a ha
    have hOn : OnCycle ro a := closedCycle_mem_onCycle ro hcyc ha
    obtain ⟨p, hp⟩ := onCycle_parent_isSome hOn
    exact hKeys p a hp
  have horb : ∀ a ∈ cyc, InOrbit ro (cyc.head?.getD "") a := by
    intro a ha
    exact (closedCycle_mem_iff_orbit_head ro hcyc a).mp ha
  intro todo
  induction todo with
  | nil => intro done fuel s _ hne; exact absurd rfl hne
  | cons hd rest ih =>
    intro done fuel s hsplit hne hdone htodo hfuel
    rcases fuel with _ | f
    · omega
    have hdnv : hd ∉ s.visited := htodo hd (List.mem_cons_self hd rest)
    show ((visit g (f + 1) ((hd :: rest).head?.getD "") done s).recursion = _) ∧ _
    have hhead : (hd :: rest).head?.getD "" = hd := rfl
    rw [hhead, visit_not_visited g f hd done s hdnv]
    set anc' := done ++ [hd] with hancdef
    set s1 : TState := { s with visited := hd :: s.visited } with hs1def
    set L := lookupD g hd [] with hLdef
    -- path facts
    have hpref : anc' <+: cyc := ⟨rest, by rw [hsplit, hancdef]; simp⟩
    have hchA : List.Chain' (EdgeOf ro) anc' := List.Chain'.prefix hcyc.2.1 hpref
    have hndA : anc'.Nodup := hcyc.2.2.2.sublist hpref.sublist
    have hneA : anc' ≠ [] := by simp [hancdef]
    have hlastA : anc'.getLast?.getD "" = hd := by
      rw [hancdef, List.getLast?_concat]
      rfl
    have hancOrb : ∀ a ∈ anc', InOrbit ro (cyc.head?.getD "") a := fun a ha =>
      horb a (hpref.subset ha)
    have hvisA : ∀ a ∈ anc', a ∈ s1.visited := by
      intro a ha
      rcases List.mem_append.mp ha with h1 | h1
      · exact List.mem_cons_of_mem _ (hdone a h1)
      · rcases List.mem_singleton.mp h1 with rfl
        exact List.mem_cons_self _ _
    have hLnodup : L.Nodup := hAftN hd
    have hLedge : ∀ b ∈ L, EdgeOf ro hd b := fun b hb => (hAft hd b).mp hb
    -- the successor of hd on the cycle
    rcases rest with _ | ⟨r0, rest'⟩
    · -- hd is the last cycle vertex; the successor is the cycle head
      have hanceq : anc' = cyc := by rw [hsplit, hancdef]
      have hlastc : cyc.getLast?.getD "" = hd := by rw [← hanceq, hlastA]
      have hsuccpar : parentOf ro (cyc.head?.getD "") = some hd := by
        have := hcyc.2.2.1
        rwa [hlastc] at this
      have hsuccL : cyc.head?.getD "" ∈ L := (hAft hd _).mpr hsuccpar
      obtain ⟨L1, L2, hLsplit⟩ := List.append_of_mem hsuccL
      have hnd2 : (L1 ++ cyc.head?.getD "" :: L2).Nodup := by
        rw [← hLsplit]; exact hLnodup
      have hs1 : cyc.head?.getD "" ∉ L1 := by
        intro hc
        have := (List.nodup_append.mp hnd2).2.2
        exact this hc (List.mem_cons_self _ _)
      have hs2 : cyc.head?.getD "" ∉ L2 := by
        have := (List.nodup_append.mp hnd2).2.1
        exact (List.nodup_cons.mp this).1
      have hoff : ∀ b ∈ L, b ≠ cyc.head?.getD "" →
          ¬ InOrbit ro (cyc.head?.getD "") b := by
        intro b hb hbne hinb
        obtain ⟨i, hi⟩ := hinb
        have hju : InOrbit ro (cyc.head?.getD "") (cyc.head?.getD "") :=
          inOrbit_refl ro _
        obtain ⟨j, hj⟩ := hju
        exact hbne (orbit_parent_unique ro hcpos hperiod hi hj
          (hLedge b hb) hsuccpar)
      have hoff1 : ∀ b ∈ L1, EdgeOf ro hd b ∧ ¬ InOrbit ro (cyc.head?.getD "") b := by
        intro b hb
        have hbL : b ∈ L := by rw [hLsplit]; exact List.mem_append_left _ hb
        refine ⟨hLedge b hbL, hoff b hbL ?_⟩
        rintro rfl; exact hs1 hb
      have hoff2 : ∀ b ∈ L2, EdgeOf ro hd b ∧ ¬ InOrbit ro (cyc.head?.getD "") b := by
        intro b hb
        have hbL : b ∈ L := by
          rw [hLsplit]
          exact List.mem_append_right _ (List.mem_cons_of_mem _ hb)
        refine ⟨hLedge b hbL, hoff b hbL ?_⟩
        rintro rfl; exact hs2 hb
      rw [hLsplit, visitAfters_append]
      obtain ⟨htF1, hvF1⟩ := treeFold ro g hAft f hd (cyc.head?.getD "") anc'
        hancOrb hchA hndA hlastA hneA L1 s1 hoff1 hvisA
      set t1 := visitAfters g f hd L1 anc' s1 with ht1def
      rw [visitAfters_cons]
      have hmemanc : cyc.head?.getD "" ∈ anc' := by rw [hanceq]; exact huin
      rw [if_pos hmemanc]
      set t2 : TState := { t1 with recursive := t1.recursive ++ (hd :: anc'), recursion := t1.recursion ++ (hd :: anc') } with ht2def
      have hvisA2 : ∀ a ∈ anc', a ∈ t2.visited := by
        intro a ha
        show a ∈ t1.visited
        exact ((visit_extends g f).2 hd L1 anc' s1).1 a (hvisA a ha)
      obtain ⟨htF2, hvF2⟩ := treeFold ro g hAft f hd (cyc.head?.getD "") anc'
        hancOrb hchA hndA hlastA hneA L2 t2 hoff2 hvisA2
      refine ⟨?_, ?_, ?_⟩
      · show (visitAfters g f hd L2 anc' t2).recursion = _
        rw [htF2, ht2def]
        show t1.recursion ++ (hd :: anc') = _
        rw [htF1, hanceq, hlastc]
      · intro a ha
        show a ∈ (visitAfters g f hd L2 anc' t2).visited
        have h1 : a ∈ t2.visited := hvisA2 a (by rwa [hanceq])
        exact ((visit_extends g f).2 hd L2 anc' t2).1 a h1
      · intro x hx
        rcases hvF2 x hx with h1 | h1
        · have h2 : x ∈ t1.visited := h1
          rcases hvF1 x h2 with h3 | h3
          · rcases List.mem_cons.mp h3 with rfl | h4
            · refine Or.inr (Or.inl ?_)
              rw [← hanceq, hancdef]
              simp
            · exact Or.inl h4
          · exact Or.inr (Or.inr h3)
        · exact Or.inr (Or.inr h1)
    · -- the successor is the next cycle vertex r0
      have hchc : List.Chain' (EdgeOf ro) (hd :: r0 :: rest') :=
        hcyc.2.1.suffix ⟨done, hsplit.symm⟩
      have hsuccpar : parentOf ro r0 = some hd := (List.chain'_cons.mp hchc).1
      have hr0cyc : r0 ∈ cyc := by rw [hsplit]; simp
      have hr0orb : InOrbit ro (cyc.head?.getD "") r0 := horb r0 hr0cyc
      have hsuccL : r0 ∈ L := (hAft hd r0).mpr hsuccpar
      obtain ⟨L1, L2, hLsplit⟩ := List.append_of_mem hsuccL
      have hnd2 : (L1 ++ r0 :: L2).Nodup := by rw [← hLsplit]; exact hLnodup
      have hs1m : r0 ∉ L1 := fun hc =>
        (List.nodup_append.mp hnd2).2.2 hc (List.mem_cons_self _ _)
      have hs2m : r0 ∉ L2 :=
        (List.nodup_cons.mp (List.nodup_append.mp hnd2).2.1).1
      obtain ⟨j0, hj0⟩ := hr0orb
      have hoff : ∀ b ∈ L, b ≠ r0 → ¬ InOrbit ro (cyc.head?.getD "") b := by
        intro b hb hbne hinb
        obtain ⟨i, hi⟩ := hinb
        exact hbne (orbit_parent_unique ro hcpos hperiod hi hj0
          (hLedge b hb) hsuccpar)
      have hoff1 : ∀ b ∈ L1, EdgeOf ro hd b ∧
          ¬ InOrbit ro (cyc.head?.getD "") b := by
        intro b hb
        have hbL : b ∈ L := by rw [hLsplit]; exact List.mem_append_left _ hb
        refine ⟨hLedge b hbL, hoff b hbL ?_⟩
        rintro rfl; exact hs1m hb
      have hoff2 : ∀ b ∈ L2, EdgeOf ro hd b ∧
          ¬ InOrbit ro (cyc.head?.getD "") b := by
        intro b hb
        have hbL : b ∈ L := by
          rw [hLsplit]
          exact List.mem_append_right _ (List.mem_cons_of_mem _ hb)
        refine ⟨hLedge b hbL, hoff b hbL ?_⟩
        rintro rfl; exact hs2m hb
      rw [hLsplit, visitAfters_append]
      obtain ⟨htF1, hvF1⟩ := treeFold ro g hAft f hd (cyc.head?.getD "") anc'
        hancOrb hchA hndA hlastA hneA L1 s1 hoff1 hvisA
      set t1 := visitAfters g f hd L1 anc' s1 with ht1def
      rw [visitAfters_cons]
      have hcycsplit : cyc = anc' ++ (r0 :: rest') := by
        rw [hsplit, hancdef]; simp
      have hnotin : r0 ∉ anc' := by
        intro hc
        have hnodc := hcyc.2.2.2
        rw [hcycsplit] at hnodc
        exact (List.nodup_append.mp hnodc).2.2 hc (List.mem_cons_self _ _)
      rw [if_neg hnotin]
      have hdonev : ∀ a ∈ anc', a ∈ t1.visited := fun a ha =>
        ((visit_extends g f).2 hd L1 anc' s1).1 a (hvisA a ha)
      have hhdnr : hd ∉ (r0 :: rest') := by
        intro hc
        have hnodc := hcyc.2.2.2
        rw [hcycsplit] at hnodc
        exact (List.nodup_append.mp hnodc).2.2 (by rw [hancdef]; simp) hc
      have hrestnv : ∀ a ∈ (r0 :: rest'), a ∉ t1.visited := by
        intro a ha hav
        have hacyc : a ∈ cyc := by rw [hcycsplit]; exact List.mem_append_right _ ha
        have haOn : OnCycle ro a := closedCycle_mem_onCycle ro hcyc hacyc
        rcases hvF1 a hav with h1 | h1
        · rcases List.mem_cons.mp h1 with rfl | h2
          · exact hhdnr ha
          · exact htodo a (List.mem_cons_of_mem _ ha) h2
        · exact h1 haOn
      have hfuel' : unvis g t1 < f := by
        have h1 : unvis g s1 < unvis g s :=
          unvis_mark g s hd (hcycKeys hd (by rw [hsplit]; simp)) hdnv
        have h2 : unvis g t1 ≤ unvis g s1 :=
          unvis_mono g (fun x hx => ((visit_extends g f).2 hd L1 anc' s1).1 x hx)
        omega
      have hih := ih (done ++ [hd]) f t1 (by rw [hsplit]; simp)
        (by simp) (by rw [← hancdef]; exact hdonev) hrestnv hfuel'
      rw [← hancdef] at hih
      obtain ⟨hrec2, hcyc2, hvis2⟩ := hih
      set t2 := visit g f r0 anc' t1 with ht2def
      have hvisA3 : ∀ a ∈ anc', a ∈ t2.visited := fun a ha =>
        ((visit_extends g f).1 r0 anc' t1).1 a (hdonev a ha)
      obtain ⟨htF2, hvF2⟩ := treeFold ro g hAft f hd (cyc.head?.getD "") anc'
        hancOrb hchA hndA hlastA hneA L2 t2 hoff2 hvisA3
      refine ⟨?_, ?_, ?_⟩
      · show (visitAfters g f hd L2 anc' t2).recursion = _
        rw [htF2, ht2def]
        show (visit g f ((r0 :: rest').head?.getD "") anc' t1).recursion = _
        rw [hrec2, htF1]
      · intro a ha
        show a ∈ (visitAfters g f hd L2 anc' t2).visited
        have h1 : a ∈ t2.visited := by
          rw [ht2def]
          exact hcyc2 a ha
        exact ((visit_extends g f).2 hd L2 anc' t2).1 a h1
      · intro x hx
        rcases hvF2 x hx with h1 | h1
        · rw [ht2def] at h1
          rcases hvis2 x h1 with h2 | h2
          · rcases hvF1 x h2 with h3 | h3
            · rcases List.mem_cons.mp h3 with rfl | h4
              · refine Or.inr (Or.inl ?_)
                rw [hsplit]
                simp
              · exact Or.inl h4
            · exact Or.inr (Or.inr h3)
          · exact Or.inr h2
        · exact Or.inr (Or.inr h1)

end Toposort

namespace Toposort

/-- Orbits of cycle members are symmetric. -/
theorem inOrbit_symm {ro : List (String × String)} {u x : String}
    (hu : OnCycle ro u) (h : InOrbit ro u x) : InOrbit ro x u := by
  obtain ⟨m, hm0, hm⟩ := onCycle_def' hu
  obtain ⟨i, hi⟩ := h
  exact (onCycle_iterate ro hm0 hm hi).2

theorem onCycle_of_inOrbit {ro : List (String × String)} {u x : String}
    (hu : OnCycle ro u) (h : InOrbit ro u x) : OnCycle ro x := by
  obtain ⟨m, hm0, hm⟩ := onCycle_def' hu
  obtain ⟨i, hi⟩ := h
  obtain ⟨⟨j, hj0, hj⟩, _⟩ := onCycle_iterate ro hm0 hm hi
  exact ⟨j - 1, by rwa [show j - 1 + 1 = j by omega]⟩

/-- One outer-loop step preserves the invariant and visits its key. -/
theorem outer_step (ro : List (String × String)) (g : List (String × List String))
    (hAft : ∀ p c, c ∈ lookupD g p [] ↔ EdgeOf ro p c)
    (hAftN : ∀ p, (lookupD g p []).Nodup)
    (hKeys : ∀ p c, EdgeOf ro p c → c ∈ g.map Prod.fst)
    (fuel : Nat) (k : String) (s : TState)
    (hfuel : unvis g s < fuel) (hinv : OuterInv ro s) :
    OuterInv ro (visit g fuel k [] s) ∧ k ∈ (visit g fuel k [] s).visited := by
  obtain ⟨⟨runs, hjoin, hruns, hcount⟩, hfull⟩ := hinv
  rcases fuel with _ | f
  · omega
  by_cases hkv : k ∈ s.visited
  · rw [visit_visited g f k [] s hkv]
    exact ⟨⟨⟨runs, hjoin, hruns, hcount⟩, hfull⟩, hkv⟩
  have hkmem : k ∈ (visit g (f + 1) k [] s).visited := by
    rw [visit_not_visited g f k [] s hkv]
    show k ∈ (visitAfters g f k (lookupD g k []) ([] ++ [k])
      { s with visited := k :: s.visited }).visited
    exact ((visit_extends g f).2 k _ _ _).1 k (List.mem_cons_self _ _)
  by_cases hkc : OnCycle ro k
  · -- the cycle walk
    obtain ⟨hcyc, hhead⟩ := rotation_closedCycle ro k hkc
    set cyc := rotation ro k (period ro k hkc) with hcycdef
    have hheadD : cyc.head?.getD "" = k := by rw [hhead]; rfl
    have hmemk : k ∈ cyc := by
      rw [← hheadD, head_getD_eq_get cyc hcyc.1]
      exact List.get_mem _ _ _
    have htodo : ∀ a ∈ cyc, a ∉ s.visited := by
      intro a ha hav
      have haorb : InOrbit ro k a := by
        have := (closedCycle_mem_iff_orbit_head ro hcyc a).mp ha
        rwa [hheadD] at this
      have haon : OnCycle ro a := onCycle_of_inOrbit hkc haorb
      have hback : InOrbit ro a k := inOrbit_symm hkc haorb
      exact hkv (hfull a haon hav k hback)
    have hwalk := walk ro g hAft hAftN hKeys hcyc cyc [] (f + 1) s
      (by simp) hcyc.1 (by simp) htodo hfuel
    rw [hheadD] at hwalk
    obtain ⟨hrec, hcycvis, hvisadd⟩ := hwalk
    refine ⟨⟨⟨runs ++ [cyc.getLast?.getD "" :: cyc], ?_, ?_, ?_⟩, ?_⟩, hkmem⟩
    · rw [hrec, hjoin]
      simp
    · intro r hr
      rcases List.mem_append.mp hr with h | h
      · exact hruns r h
      · rcases List.mem_singleton.mp h with rfl
        exact ⟨cyc, hcyc, rfl⟩
    · intro u hu
      rw [List.countP_append]
      have hcu := hcount u hu
      by_cases humem : u ∈ cyc
      · have h0 : (if u ∈ s.visited then 1 else 0) = 0 := by
          rw [if_neg (htodo u humem)]
        rw [hcu, h0]
        have h1 : List.countP (fun r => decide (u ∈ r.tail))
            [cyc.getLast?.getD "" :: cyc] = 1 := by
          simp [List.countP_cons, humem]
        rw [h1, if_pos (hcycvis u humem)]
      · have h1 : List.countP (fun r => decide (u ∈ r.tail))
            [cyc.getLast?.getD "" :: cyc] = 0 := by
          simp [List.countP_cons, humem]
        rw [h1, hcu]
        have hvisiff : (u ∈ (visit g (f + 1) k [] s).visited) ↔ u ∈ s.visited := by
          constructor
          · intro hv
            rcases hvisadd u hv with h | h | h
            · exact h
            · exact absurd h humem
            · exact absurd hu h
          · intro hv
            exact ((visit_extends g (f + 1)).1 k [] s).1 u hv
        by_cases huv : u ∈ s.visited
        · rw [if_pos huv, if_pos (hvisiff.mpr huv)]
        · rw [if_neg huv, if_neg (fun hc => huv (hvisiff.mp hc))]
    · intro u hu huv x hux
      rcases hvisadd u huv with h | h | h
      · exact ((visit_extends g (f + 1)).1 k [] s).1 x (hfull u hu h x hux)
      · have hkx : InOrbit ro k x := by
          have hku : InOrbit ro k u := by
            have := (closedCycle_mem_iff_orbit_head ro hcyc u).mp h
            rwa [hheadD] at this
          exact inOrbit_trans hku hux
        have : x ∈ cyc := by
          rw [closedCycle_mem_iff_orbit_head ro hcyc x, hheadD]
          exact hkx
        exact hcycvis x this
      · exact absurd hu h
  · -- no cycle through k: nothing recorded, no cycle vertex visited
    have hrec := visit_no_runs_nil ro g hAft (f + 1) k s hkc
    have hvisadd := visit_visited_nocycle ro g hAft (f + 1) k [] s hkc
    refine ⟨⟨⟨runs, by rw [hrec, hjoin], hruns, ?_⟩, ?_⟩, hkmem⟩
    · intro u hu
      have hvisiff : (u ∈ (visit g (f + 1) k [] s).visited) ↔ u ∈ s.visited := by
        constructor
        · intro hv
          rcases hvisadd u hv with h | h
          · exact h
          · exact absurd hu h
        · intro hv
          exact ((visit_extends g (f + 1)).1 k [] s).1 u hv
      rw [hcount u hu]
      by_cases huv : u ∈ s.visited
      · rw [if_pos huv, if_pos (hvisiff.mpr huv)]
      · rw [if_neg huv, if_neg (fun hc => huv (hvisiff.mp hc))]
    · intro u hu huv x hux
      rcases hvisadd u huv with h | h
      · exact ((visit_extends g (f + 1)).1 k [] s).1 x (hfull u hu h x hux)
      · exact absurd hu h

end Toposort

namespace Toposort

theorem unvis_le (g : List (String × List String)) (s : TState) :
    unvis g s ≤ g.length := by
  unfold unvis
  calc ((g.map Prod.fst).filter _).length ≤ (g.map Prod.fst).length :=
        List.length_filter_le _ _
    _ = g.length := List.length_map _ _

theorem tsort_foldl_inv (ro : List (String × String))
    (g : List (String × List String))
    (hAft : ∀ p c, c ∈ lookupD g p [] ↔ EdgeOf ro p c)
    (hAftN : ∀ p, (lookupD g p []).Nodup)
    (hKeys : ∀ p c, EdgeOf ro p c → c ∈ g.map Prod.fst) :
    ∀ (order : List String) (s : TState), OuterInv ro s →
      OuterInv ro (order.foldl (fun s k => visit g (g.length + 1) k [] s) s) ∧
      (∀ k ∈ order,
        k ∈ (order.foldl (fun s k => visit g (g.length + 1) k [] s) s).visited) ∧
      (∀ x ∈ s.visited,
        x ∈ (order.foldl (fun s k => visit g (g.length + 1) k [] s) s).visited) := by
  intro order
  induction order with
  | nil => intro s hinv; exact ⟨hinv, by simp, fun x hx => hx⟩
  | cons k rest ih =>
    intro s hinv
    rw [List.foldl_cons]
    have hfuel : unvis g s < g.length + 1 :=
      Nat.lt_succ_of_le (unvis_le g s)
    obtain ⟨hinv', hkvis⟩ := outer_step ro g hAft hAftN hKeys (g.length + 1) k s
      hfuel hinv
    obtain ⟨hinvF, hrestF, hmonoF⟩ := ih (visit g (g.length + 1) k [] s) hinv'
    refine ⟨hinvF, ?_, ?_⟩
    · intro k2 hk2
      rcases List.mem_cons.mp hk2 with rfl | h
      · exact hmonoF k2 hkvis
      · exact hrestF k2 h
    · intro x hx
      exact hmonoF x (((visit_extends g (g.length + 1)).1 k [] s).1 x hx)

theorem tsort_foldl_sync (g : List (String × List String)) :
    ∀ (order : List String) (s : TState), s.recursive = s.recursion →
      (order.foldl (fun s k => visit g (g.length + 1) k [] s) s).recursive =
        (order.foldl (fun s k => visit g (g.length + 1) k [] s) s).recursion := by
  intro order
  induction order with
  | nil => intro s h; exact h
  | cons k rest ih =>
    intro s h
    rw [List.foldl_cons]
    exact ih _ ((visit_rec_sync g (g.length + 1)).1 k [] s h)

/-- The content of `tsort`'s recursion record: a concatenation of closed
cycle runs, exactly one per cycle of the graph. -/
theorem tsort_runs (ro : List (String × String)) (g : List (String × List String))
    (hAft : ∀ p c, c ∈ lookupD g p [] ↔ EdgeOf ro p c)
    (hAftN : ∀ p, (lookupD g p []).Nodup)
    (hKeys : ∀ p c, EdgeOf ro p c → c ∈ g.map Prod.fst)
    (order : List String) (horder : ∀ k ∈ g.map Prod.fst, k ∈ order) :
    ∃ runs : List (List String), (tsort g order).2.2 = runs.join ∧
      (∀ r ∈ runs, IsCycleRun ro r) ∧
      (∀ u, OnCycle ro u → runs.countP (fun r => decide (u ∈ r.tail)) = 1) := by
  have hinv0 : OuterInv ro TState.init := by
    refine ⟨⟨[], rfl, by simp, ?_⟩, ?_⟩
    · intro u hu
      simp [TState.init]
    · intro u hu huv
      simp [TState.init] at huv
  obtain ⟨⟨runs, hjoin, hruns, hcount⟩, hvisited⟩ :=
    (tsort_foldl_inv ro g hAft hAftN hKeys order TState.init hinv0).1
  have hallvis := (tsort_foldl_inv ro g hAft hAftN hKeys order TState.init hinv0).2.1
  refine ⟨runs, hjoin, hruns, ?_⟩
  intro u hu
  have hukeys : u ∈ g.map Prod.fst := by
    obtain ⟨p, hp⟩ := onCycle_parent_isSome hu
    exact hKeys p u hp
  have huvis := hallvis u (horder u hukeys)
  rw [hcount u hu, if_pos huvis]

/-- C8 at the `tsort` level: a key is flagged recursive iff it lies on a
cycle of the normalized relation graph. -/
theorem tsort_recursive_iff (ro : List (String × String))
    (g : List (String × List String))
    (hAft : ∀ p c, c ∈ lookupD g p [] ↔ EdgeOf ro p c)
    (hAftN : ∀ p, (lookupD g p []).Nodup)
    (hKeys : ∀ p c, EdgeOf ro p c → c ∈ g.map Prod.fst)
    (order : List String) (horder : ∀ k ∈ g.map Prod.fst, k ∈ order)
    (x : String) :
    x ∈ (tsort g order).2.1 ↔ OnCycle ro x := by
  obtain ⟨runs, hjoin, hruns, hcount⟩ :=
    tsort_runs ro g hAft hAftN hKeys order horder
  have hsync : (tsort g order).2.1 = (tsort g order).2.2 := by
    show (List.foldl _ TState.init order).recursive =
      (List.foldl _ TState.init order).recursion
    exact tsort_foldl_sync g order TState.init rfl
  rw [hsync, hjoin]
  constructor
  · intro hx
    obtain ⟨r, hr, hxr⟩ := List.mem_join.mp hx
    obtain ⟨cyc, hcyc, rfl⟩ := hruns r hr
    have hxcyc : x ∈ cyc := by
      rcases List.mem_cons.mp hxr with rfl | h
      · rw [getLast_getD_eq_get cyc hcyc.1]
        exact List.get_mem _ _ _
      · exact h
    exact closedCycle_mem_onCycle ro hcyc hxcyc
  · intro hx
    have := hcount x hx
    have hpos : 0 < runs.countP (fun r => decide (x ∈ r.tail)) := by omega
    obtain ⟨r, hr, hxr⟩ := List.countP_pos.mp hpos
    simp only [decide_eq_true_eq] at hxr
    apply List.mem_join.mpr
    exact ⟨r, hr, List.mem_of_mem_tail hxr⟩

end Toposort

namespace Toposort

theorem lookupD_addKey (vs : List (String × List String)) (k p : String) :
    lookupD (addKey vs k) p [] = lookupD vs p [] := by
  unfold addKey
  split
  · rfl
  · rename_i hnc
    unfold lookupD
    rw [List.find?_append]
    cases hf : vs.find? (fun e => e.1 == p) with
    | some e => rfl
    | none =>
      simp only [Option.none_or]
      cases hp : ((([(k, ([] : List String))]).find? (fun e => e.1 == p))) with
      | none => rfl
      | some e =>
        have : e = (k, []) := by
          simp only [List.find?_singleton] at hp
          split at hp
          · exact (Option.some.inj hp).symm
          · exact Option.noConfusion hp
        rw [this]

theorem lookupD_appendAfter (vs : List (String × List String)) (p0 c0 p : String) :
    lookupD (appendAfter vs p0 c0) p [] =
      if p = p0 then
        (match vs.find? (fun e => e.1 == p) with
        | some e => e.2 ++ [c0]
        | none => [])
      else lookupD vs p [] := by
  have hcomp : ((fun e : String × List String => e.1 == p) ∘
      fun e : String × List String => if e.1 == p0 then (e.1, e.2 ++ [c0]) else e) =
      fun e : String × List String => e.1 == p := by
    funext e
    by_cases h : e.1 = p0
    · simp [h]
    · simp [h]
  have hmain : lookupD (appendAfter vs p0 c0) p [] =
      match (vs.find? (fun e => e.1 == p)).map
          (fun e => if e.1 == p0 then (e.1, e.2 ++ [c0]) else e) with
      | some e => e.2
      | none => [] := by
    unfold lookupD appendAfter
    rw [List.find?_map, hcomp]
    cases List.find? (fun e => e.1 == p) vs <;> rfl
  rw [hmain]
  cases hf : vs.find? (fun e => e.1 == p) with
  | none =>
    simp only [Option.map_none']
    have hR : lookupD vs p [] = [] := by unfold lookupD; rw [hf]
    rw [hR]
    split <;> rfl
  | some e =>
    have he : e.1 = p := by simpa using List.find?_some hf
    simp only [Option.map_some]
    have hR : lookupD vs p [] = e.2 := by unfold lookupD; rw [hf]
    by_cases hpp : p = p0
    · have hb : e.1 = p0 := he.trans hpp
      rw [if_pos hpp]
      simp [hb]
    · have hb : ¬ e.1 = p0 := by rw [he]; exact hpp
      rw [if_neg hpp, hR]
      simp [hb]

/-- After `addKey vs k`, the key `k` is present. -/
theorem containsKey_addKey_self (vs : List (String × List String)) (k : String) :
    containsKey (addKey vs k) k = true := by
  unfold addKey
  split
  · assumption
  · unfold containsKey
    simp

/-- The adjacency list of `p` holds exactly the children of `p`, in
relation order. -/
theorem buildVertices_afters (l : List (String × String)) (p : String) :
    lookupD (buildVertices l) p [] =
      (l.filter (fun e => e.2 == p)).map Prod.fst := by
  induction l using List.reverseRecOn with
  | nil => rfl
  | append_singleton l e ih =>
    rcases e with ⟨c0, p0⟩
    unfold buildVertices
    rw [List.foldl_append]
    show lookupD (appendAfter (addKey (addKey (buildVertices l) c0) p0) p0 c0) p [] = _
    rw [lookupD_appendAfter]
    have hmemkey : containsKey (addKey (addKey (buildVertices l) c0) p0) p0 = true :=
      containsKey_addKey_self _ _
    by_cases hpp : p = p0
    · subst hpp
      rw [if_pos rfl]
      have hfind : (addKey (addKey (buildVertices l) c0) p).find?
          (fun e => e.1 == p) ≠ none := by
        intro hc
        unfold containsKey at hmemkey
        rw [List.any_eq_true] at hmemkey
        obtain ⟨e, he, hee⟩ := hmemkey
        have := List.find?_eq_none.mp hc e he
        exact this hee
      cases hf : (addKey (addKey (buildVertices l) c0) p).find?
          (fun e => e.1 == p) with
      | none => exact absurd hf hfind
      | some e =>
        have he2 : e.2 = lookupD (addKey (addKey (buildVertices l) c0) p) p [] := by
          unfold lookupD
          rw [hf]
        show e.2 ++ [c0] = _
        rw [he2, lookupD_addKey, lookupD_addKey, ih]
        simp [List.filter_append, List.map_append]
    · rw [if_neg hpp]
      rw [lookupD_addKey, lookupD_addKey, ih]
      have : (([((c0 : String), (p0 : String))]).filter (fun e => e.2 == p)) = [] := by
        simp
        intro h
        exact absurd h.symm hpp
      rw [List.filter_append, this, List.append_nil]

/-! ## Pipeline bridges and the cycle-reporting claims -/

/-- Keys of `assocSet`: unchanged if `k` is present, else `k` appended. -/
theorem assocSet_keys (l : List (String × String)) (k v : String) :
    (assocSet l k v).map Prod.fst =
      if containsKey l k then l.map Prod.fst else l.map Prod.fst ++ [k] := by
  unfold assocSet
  split
  · rename_i h
    rw [List.map_map]
    apply List.map_congr_left
    intro e _
    by_cases hek : e.1 = k
    · simp [hek]
    · simp [hek]
  · simp

/-- `assocSet` preserves key nodup. -/
theorem assocSet_keys_nodup (l : List (String × String)) (k v : String)
    (h : (l.map Prod.fst).Nodup) : ((assocSet l k v).map Prod.fst).Nodup := by
  rw [assocSet_keys]
  split
  · exact h
  · rename_i hck
    rw [List.nodup_append]
    refine ⟨h, List.nodup_singleton k, ?_⟩
    intro a ha hb
    rw [List.mem_singleton] at hb
    subst hb
    have hk : a ∉ l.map Prod.fst := by
      intro hmem
      exact hck ((containsKey_iff l a).mpr hmem)
    exact hk ha

/-- The relations component of one `buildRelStep` is an `assocSet`. -/
theorem buildRelStep_rels (st : List (String × String) × List (String × String) × List Err)
    (kv : String × String) :
    (buildRelStep st kv).1 = assocSet st.1 (toLower kv.1) (toLower kv.2) := by
  rcases st with ⟨rels, ids, err⟩
  rcases kv with ⟨k, v⟩
  show (buildRelStep (rels, ids, err) (k, v)).1 = _
  unfold buildRelStep
  dsimp only

theorem relationsOf_keys_nodup_aux (data : List (String × String)) :
    ∀ rels ids err, ((rels : List (String × String)).map Prod.fst).Nodup →
      (((data.foldl buildRelStep (rels, ids, err)).1).map Prod.fst).Nodup := by
  induction data with
  | nil => intro rels ids err h; exact h
  | cons kv rest ih =>
    intro rels ids err h
    rw [List.foldl_cons]
    rcases hst : buildRelStep (rels, ids, err) kv with ⟨rels', ids', err'⟩
    have h1 : rels' = assocSet rels (toLower kv.1) (toLower kv.2) := by
      have := buildRelStep_rels (rels, ids, err) kv
      rw [hst] at this
      exact this
    subst h1
    exact ih _ _ _ (assocSet_keys_nodup _ _ _ h)

/-- The normalized relations map has pairwise-distinct child keys. -/
theorem relationsOf_keys_nodup (data : List (String × String)) :
    ((relationsOf data).map Prod.fst).Nodup :=
  relationsOf_keys_nodup_aux data [] [] [] (by simp)

/-- Under nodup child keys, any member pair determines the parent. -/
theorem parentOf_eq_some_of_mem (l : List (String × String)) (c p : String)
    (hnd : (l.map Prod.fst).Nodup) (hm : (c, p) ∈ l) :
    parentOf l c = some p := by
  induction l with
  | nil => cases hm
  | cons e rest ih =>
    simp only [List.map_cons, List.nodup_cons] at hnd
    rcases List.mem_cons.mp hm with he | hm'
    · subst he
      unfold parentOf
      rw [List.find?_cons_of_pos]
      · rfl
      · simp
    · have hne : ¬ e.1 = c := by
        intro hec
        apply hnd.1
        rw [hec]
        exact List.mem_map.mpr ⟨(c, p), hm', rfl⟩
      unfold parentOf
      rw [List.find?_cons_of_neg]
      · exact ih hnd.2 hm'
      · simp [hne]

theorem mem_of_parentOf_eq_some (l : List (String × String)) (c p : String)
    (h : parentOf l c = some p) : (c, p) ∈ l := by
  unfold parentOf at h
  cases hf : l.find? (fun e => e.1 == c) with
  | none => rw [hf] at h; cases h
  | some e =>
    rw [hf] at h
    have hm := List.mem_of_find?_eq_some hf
    have hp := List.find?_some hf
    simp only [beq_iff_eq] at hp
    simp only [Option.map_some'] at h
    injection h with h
    rcases e with ⟨a, b⟩
    dsimp only at hp h
    subst hp
    subst h
    exact hm

/-- `parentOf` is invariant under permutation when child keys are nodup. -/
theorem parentOf_perm {l l' : List (String × String)} (hp : l.Perm l')
    (hnd : (l.map Prod.fst).Nodup) (c : String) :
    parentOf l c = parentOf l' c := by
  have hnd' : (l'.map Prod.fst).Nodup := ((hp.map Prod.fst).nodup_iff).mp hnd
  cases h : parentOf l c with
  | some p =>
    exact (parentOf_eq_some_of_mem l' c p hnd'
      (hp.mem_iff.mp (mem_of_parentOf_eq_some l c p h))).symm
  | none =>
    cases h' : parentOf l' c with
    | none => rfl
    | some p =>
      have hmem := parentOf_eq_some_of_mem l c p hnd
        (hp.mem_iff.mpr (mem_of_parentOf_eq_some l' c p h'))
      rw [h] at hmem
      cases hmem

theorem parentIter_congr {ro ro' : List (String × String)}
    (h : ∀ c, parentOf ro c = parentOf ro' c) :
    ∀ n k, parentIter ro n k = parentIter ro' n k := by
  intro n
  induction n with
  | zero => intro k; rfl
  | succ m ih =>
    intro k
    unfold parentIter
    rw [h k]
    cases parentOf ro' k with
    | none => rfl
    | some p => exact ih p

theorem onCycle_congr {ro ro' : List (String × String)}
    (h : ∀ c, parentOf ro c = parentOf ro' c) (k : String) :
    OnCycle ro k ↔ OnCycle ro' k := by
  unfold OnCycle
  constructor
  · rintro ⟨n, hn⟩
    exact ⟨n, by rw [← parentIter_congr h]; exact hn⟩
  · rintro ⟨n, hn⟩
    exact ⟨n, by rw [parentIter_congr h]; exact hn⟩

/-- `appendAfter` keeps the key list unchanged. -/
theorem appendAfter_keys (vs : List (String × List String)) (p c : String) :
    (appendAfter vs p c).map Prod.fst = vs.map Prod.fst := by
  unfold appendAfter
  rw [List.map_map]
  apply List.map_congr_left
  intro e _
  by_cases h : e.1 = p
  · simp [h]
  · simp [h]

theorem addKey_keys_mono (vs : List (String × List String)) (k x : String)
    (h : x ∈ vs.map Prod.fst) : x ∈ (addKey vs k).map Prod.fst := by
  unfold addKey
  split
  · exact h
  · rw [List.map_append]
    exact List.mem_append_left _ h

theorem addKey_keys_self (vs : List (String × List String)) (k : String) :
    k ∈ (addKey vs k).map Prod.fst := by
  unfold addKey
  split
  · rename_i h
    exact (containsKey_iff vs k).mp h
  · rw [List.map_append]
    exact List.mem_append_right _ (by simp)

/-- One vertex-building step preserves present keys. -/
theorem bvStep_keys_mono (vs : List (String × List String)) (cp : String × String)
    (x : String) (h : x ∈ vs.map Prod.fst) :
    x ∈ (appendAfter (addKey (addKey vs cp.1) cp.2) cp.2 cp.1).map Prod.fst := by
  rw [appendAfter_keys]
  exact addKey_keys_mono _ _ _ (addKey_keys_mono _ _ _ h)

/-- One vertex-building step ensures both endpoint keys. -/
theorem bvStep_keys_self (vs : List (String × List String)) (cp : String × String) :
    cp.1 ∈ (appendAfter (addKey (addKey vs cp.1) cp.2) cp.2 cp.1).map Prod.fst ∧
    cp.2 ∈ (appendAfter (addKey (addKey vs cp.1) cp.2) cp.2 cp.1).map Prod.fst := by
  rw [appendAfter_keys]
  exact ⟨addKey_keys_mono _ _ _ (addKey_keys_self _ _), addKey_keys_self _ _⟩

theorem bvFold_keys_mono (ro : List (String × String)) :
    ∀ (vs : List (String × List String)) (x : String), x ∈ vs.map Prod.fst →
      x ∈ (ro.foldl (fun vs cp =>
        appendAfter (addKey (addKey vs cp.1) cp.2) cp.2 cp.1) vs).map Prod.fst := by
  induction ro with
  | nil => intro vs x h; exact h
  | cons cp rest ih =>
    intro vs x h
    rw [List.foldl_cons]
    exact ih _ _ (bvStep_keys_mono vs cp x h)

/-- Both endpoints of every relation appear among the vertex keys. -/
theorem buildVertices_keys_mem (ro : List (String × String)) (c p : String)
    (h : (c, p) ∈ ro) :
    c ∈ (buildVertices ro).map Prod.fst ∧ p ∈ (buildVertices ro).map Prod.fst := by
  unfold buildVertices
  suffices hgen : ∀ vs : List (String × List String),
      c ∈ (ro.foldl (fun vs cp =>
        appendAfter (addKey (addKey vs cp.1) cp.2) cp.2 cp.1) vs).map Prod.fst ∧
      p ∈ (ro.foldl (fun vs cp =>
        appendAfter (addKey (addKey vs cp.1) cp.2) cp.2 cp.1) vs).map Prod.fst by
    exact hgen []
  induction ro with
  | nil => cases h
  | cons cp rest ih =>
    intro vs
    rcases List.mem_cons.mp h with he | hm
    · subst he
      rw [List.foldl_cons]
      have hself := bvStep_keys_self vs (c, p)
      exact ⟨bvFold_keys_mono rest _ c hself.1, bvFold_keys_mono rest _ p hself.2⟩
    · rw [List.foldl_cons]
      exact ih hm _

/-- The adjacency lists of the built vertices are exactly the edges of the
relation list (given nodup child keys). -/
theorem mem_afters_iff (ro : List (String × String))
    (hnd : (ro.map Prod.fst).Nodup) (p c : String) :
    c ∈ lookupD (buildVertices ro) p [] ↔ EdgeOf ro p c := by
  rw [buildVertices_afters]
  constructor
  · intro h
    rcases List.mem_map.mp h with ⟨e, he, rfl⟩
    rcases List.mem_filter.mp he with ⟨hmem, hp⟩
    have hpe : e.2 = p := by simpa using hp
    show parentOf ro e.1 = some p
    exact parentOf_eq_some_of_mem ro e.1 p hnd (by rw [← hpe]; exact hmem)
  · intro h
    have hm := mem_of_parentOf_eq_some ro c p h
    apply List.mem_map.mpr
    exact ⟨(c, p), List.mem_filter.mpr ⟨hm, by simp⟩, rfl⟩

/-- Adjacency lists are duplicate-free (given nodup child keys). -/
theorem afters_nodup (ro : List (String × String))
    (hnd : (ro.map Prod.fst).Nodup) (p : String) :
    (lookupD (buildVertices ro) p []).Nodup := by
  rw [buildVertices_afters]
  exact List.Nodup.sublist ((List.filter_sublist _).map Prod.fst) hnd

/-- C8: for every input map, every iteration order of the relations map in
vertex building, and every iteration order of the vertices map in the sort,
a key is flagged recursive by the depth-first sort iff it lies on a cycle
of the normalized relation graph. -/
theorem claim_C8_recursive_iff_cycle (data relOrder : List (String × String))
    (vertOrder : List String)
    (hrel : relOrder.Perm (relationsOf data))
    (hvert : vertOrder.Perm (vertexKeys relOrder)) (x : String) :
    x ∈ (tsort (buildVertices relOrder) vertOrder).2.1 ↔
      OnCycle (relationsOf data) x := by
  have hnd : (relOrder.map Prod.fst).Nodup :=
    ((hrel.map Prod.fst).nodup_iff).mpr (relationsOf_keys_nodup data)
  have hpo : ∀ c, parentOf relOrder c = parentOf (relationsOf data) c :=
    fun c => parentOf_perm hrel hnd c
  have horder : ∀ k ∈ (buildVertices relOrder).map Prod.fst, k ∈ vertOrder :=
    fun k hk => hvert.mem_iff.mpr hk
  rw [tsort_recursive_iff relOrder (buildVertices relOrder)
    (mem_afters_iff relOrder hnd) (afters_nodup relOrder hnd)
    (fun p c h => (buildVertices_keys_mem relOrder c p
      (mem_of_parentOf_eq_some relOrder c p h)).1) vertOrder horder x]
  exact onCycle_congr hpo x

theorem claim_C8_witness :
    ("jonas" ∈ (tsort (buildVertices (relationsOf exampleSelf))
        (vertexKeys (relationsOf exampleSelf))).2.1 ↔
      OnCycle (relationsOf exampleSelf) "jonas") :=
  claim_C8_recursive_iff_cycle exampleSelf (relationsOf exampleSelf)
    (vertexKeys (relationsOf exampleSelf)) (List.Perm.refl _) (List.Perm.refl _) "jonas"

/-- The `(ids, errs)` component of one `buildRelStep` is the two
first-encounter blocks in sequence. -/
theorem buildRelStep_snd (rels ids : List (String × String)) (errs : List Err)
    (k v : String) :
    (buildRelStep (rels, ids, errs) (k, v)).2 =
      ensureId (ensureId (ids, errs) (toLower k) k) (toLower v) v := by
  unfold buildRelStep ensureId
  dsimp only

theorem ensureId_ids_mono (st : List (String × String) × List Err) (s orig : String) :
    ∀ e ∈ st.1, e ∈ (ensureId st s orig).1 := by
  unfold ensureId
  split
  · intro e he; exact he
  · intro e he; exact List.mem_append_left _ he

theorem ensureId_covers (st : List (String × String) × List Err) (s orig : String) :
    ∃ o, (s, o) ∈ (ensureId st s orig).1 := by
  unfold ensureId
  split
  · rename_i h
    rcases List.mem_map.mp ((containsKey_iff st.1 s).mp h) with ⟨e, he, he1⟩
    exact ⟨e.2, by rw [← he1]; exact he⟩
  · exact ⟨orig, List.mem_append_right _ (by simp)⟩

theorem ensureId_h2 (st : List (String × String) × List Err) (s orig : String)
    (hs : toLower orig = s) (h : ∀ e ∈ st.1, toLower e.2 = e.1) :
    ∀ e ∈ (ensureId st s orig).1, toLower e.2 = e.1 := by
  unfold ensureId
  split
  · exact h
  · intro e he
    rcases List.mem_append.mp he with he | he
    · exact h e he
    · rw [List.mem_singleton] at he
      subst he
      exact hs

theorem ensureId_h3 (st : List (String × String) × List Err) (s orig : String)
    (h : ∀ e ∈ st.1, validName e.2 = true ∨ Err.invalidName e.2 ∈ st.2) :
    ∀ e ∈ (ensureId st s orig).1,
      validName e.2 = true ∨ Err.invalidName e.2 ∈ (ensureId st s orig).2 := by
  unfold ensureId
  split
  · exact h
  · intro e he
    dsimp only
    rcases List.mem_append.mp he with he | he
    · rcases h e he with hv | hm
      · exact Or.inl hv
      · right
        split
        · exact hm
        · exact List.mem_append_left _ hm
    · rw [List.mem_singleton] at he
      subst he
      dsimp only
      by_cases hv : validName orig
      · exact Or.inl hv
      · right
        rw [if_neg hv]
        exact List.mem_append_right _ (by simp)

/-- Membership cases for `assocSet`. -/
theorem assocSet_mem_cases (l : List (String × String)) (k v : String)
    (e : String × String) (h : e ∈ assocSet l k v) : e ∈ l ∨ e = (k, v) := by
  unfold assocSet at h
  split at h
  · rcases List.mem_map.mp h with ⟨e0, he0, heq⟩
    by_cases hk : e0.1 = k
    · right
      rw [← heq]
      simp [hk]
    · left
      rw [← heq]
      simp only [hk, beq_iff_eq, if_false]
      exact he0
  · rcases List.mem_append.mp h with h | h
    · exact Or.inl h
    · right
      simpa using h

/-- Joint invariant of the `buildRelations` fold: every relation endpoint
has a recorded first original, originals normalize to their key, and every
recorded original is valid or charged an invalid-name error. -/
theorem buildRel_inv_aux (data : List (String × String)) :
    ∀ rels ids errs,
      (∀ e ∈ rels, (∃ o, (e.1, o) ∈ ids) ∧ ∃ o, (e.2, o) ∈ ids) →
      (∀ e ∈ ids, toLower e.2 = e.1) →
      (∀ e ∈ ids, validName e.2 = true ∨ Err.invalidName e.2 ∈ errs) →
      ((∀ e ∈ (data.foldl buildRelStep (rels, ids, errs)).1,
          (∃ o, (e.1, o) ∈ (data.foldl buildRelStep (rels, ids, errs)).2.1) ∧
          ∃ o, (e.2, o) ∈ (data.foldl buildRelStep (rels, ids, errs)).2.1) ∧
        (∀ e ∈ (data.foldl buildRelStep (rels, ids, errs)).2.1, toLower e.2 = e.1) ∧
        (∀ e ∈ (data.foldl buildRelStep (rels, ids, errs)).2.1,
          validName e.2 = true ∨
            Err.invalidName e.2 ∈ (data.foldl buildRelStep (rels, ids, errs)).2.2)) := by
  induction data with
  | nil =>
    intro rels ids errs h1 h2 h3
    exact ⟨h1, h2, h3⟩
  | cons kv rest ih =>
    intro rels ids errs h1 h2 h3
    rw [List.foldl_cons]
    rcases hst : buildRelStep (rels, ids, errs) kv with ⟨rels', ids', errs'⟩
    have hr : rels' = assocSet rels (toLower kv.1) (toLower kv.2) := by
      have := buildRelStep_rels (rels, ids, errs) kv
      rw [hst] at this
      exact this
    have hie : (ids', errs') = ensureId (ensureId (ids, errs) (toLower kv.1) kv.1)
        (toLower kv.2) kv.2 := by
      have := buildRelStep_snd rels ids errs kv.1 kv.2
      rw [hst] at this
      exact this
    apply ih
    · intro e he
      rw [hr] at he
      have hmono : ∀ x, x ∈ ids → x ∈ ids' := by
        intro x hx
        have h1m := ensureId_ids_mono (ids, errs) (toLower kv.1) kv.1 x hx
        have h2m := ensureId_ids_mono (ensureId (ids, errs) (toLower kv.1) kv.1)
          (toLower kv.2) kv.2 x h1m
        rw [← hie] at h2m
        exact h2m
      rcases assocSet_mem_cases rels (toLower kv.1) (toLower kv.2) e he with he | he
      · obtain ⟨⟨o1, ho1⟩, o2, ho2⟩ := h1 e he
        exact ⟨⟨o1, hmono _ ho1⟩, o2, hmono _ ho2⟩
      · subst he
        constructor
        · obtain ⟨o, ho⟩ := ensureId_covers (ids, errs) (toLower kv.1) kv.1
          have := ensureId_ids_mono (ensureId (ids, errs) (toLower kv.1) kv.1)
            (toLower kv.2) kv.2 _ ho
          rw [← hie] at this
          exact ⟨o, this⟩
        · obtain ⟨o, ho⟩ := ensureId_covers (ensureId (ids, errs) (toLower kv.1) kv.1)
            (toLower kv.2) kv.2
          rw [← hie] at ho
          exact ⟨o, ho⟩
    · intro e he
      have := ensureId_h2 (ensureId (ids, errs) (toLower kv.1) kv.1) (toLower kv.2) kv.2
        rfl (ensureId_h2 (ids, errs) (toLower kv.1) kv.1 rfl h2)
      rw [← hie] at this
      exact this e he
    · intro e he
      have := ensureId_h3 (ensureId (ids, errs) (toLower kv.1) kv.1) (toLower kv.2) kv.2
        (ensureId_h3 (ids, errs) (toLower kv.1) kv.1 h3)
      rw [← hie] at this
      exact this e he

theorem toLower_length (s : String) : (toLower s).length = s.length := by
  show (s.data.map Char.toLower).length = s.data.length
  simp

/-- On a valid-named input, every endpoint key of the normalized relations
map has length at least 2. -/
theorem relationsOf_endpoints (data : List (String × String))
    (hvalid : (buildRelations data).2.2 = []) :
    ∀ e ∈ relationsOf data, 2 ≤ e.1.length ∧ 2 ≤ e.2.length := by
  obtain ⟨hcover, hlow, hval⟩ := buildRel_inv_aux data [] [] []
    (by intro e he; cases he) (by intro e he; cases he) (by intro e he; cases he)
  have hvalid' : (data.foldl buildRelStep ([], [], [])).2.2 = [] := hvalid
  intro e he
  obtain ⟨⟨o1, ho1⟩, o2, ho2⟩ := hcover e he
  have hv1 : validName o1 = true := by
    rcases hval (e.1, o1) ho1 with hv | hm
    · exact hv
    · rw [hvalid'] at hm
      cases hm
  have hv2 : validName o2 = true := by
    rcases hval (e.2, o2) ho2 with hv | hm
    · exact hv
    · rw [hvalid'] at hm
      cases hm
  have hl1 : toLower o1 = e.1 := hlow (e.1, o1) ho1
  have hl2 : toLower o2 = e.2 := hlow (e.2, o2) ho2
  unfold validName at hv1 hv2
  rw [Bool.and_eq_true] at hv1 hv2
  have h1 := of_decide_eq_true hv1.2
  have h2 := of_decide_eq_true hv2.2
  constructor
  · rw [← hl1, toLower_length]
    exact h1
  · rw [← hl2, toLower_length]
    exact h2

/-- On a valid-named input, every key on a cycle is nonempty. -/
theorem onCycle_key_ne_empty (data : List (String × String))
    (hvalid : (buildRelations data).2.2 = []) (u : String)
    (h : OnCycle (relationsOf data) u) : u ≠ "" := by
  obtain ⟨p, hp⟩ := onCycle_parent_isSome h
  have hm := mem_of_parentOf_eq_some _ u p hp
  have hlen : 2 ≤ u.length := (relationsOf_endpoints data hvalid (u, p) hm).1
  intro he
  subst he
  exact absurd hlen (by decide)

/-- Walking `splitRec` through the body of a run: every key of `t` differs
from the pending close key `a`, so the run closes exactly at the next `a`. -/
theorem splitRec_walk (a : String) (ha : a ≠ "") :
    ∀ (t rest cur : List String) (acc : List (List String)),
      a ∉ t →
      splitRec (t ++ a :: rest) a cur acc =
        splitRec rest "" [] (acc ++ [cur ++ t ++ [a]]) := by
  intro t
  induction t with
  | nil =>
    intro rest cur acc _
    show splitRec (a :: rest) a cur acc = _
    simp only [splitRec]
    simp
  | cons k t ih =>
    intro rest cur acc hnot
    have hka : ¬ k = a := by
      intro h
      exact hnot (h ▸ List.mem_cons_self k t)
    show splitRec (k :: (t ++ a :: rest)) a cur acc = _
    simp only [splitRec]
    rw [if_neg (by simpa using hka), if_neg (by simpa using ha)]
    rw [ih rest (cur ++ [k]) acc (fun h => hnot (List.mem_cons_of_mem _ h))]
    simp

/-- `splitRec` recovers the runs from their concatenation, given each run
closes on its own head and the head does not recur inside. -/
theorem splitRec_join (runs : List (List String)) :
    (∀ r ∈ runs, ∃ a t, r = a :: (t ++ [a]) ∧ a ≠ "" ∧ a ∉ t) →
    ∀ acc, splitRec runs.join "" [] acc = acc ++ runs := by
  induction runs with
  | nil =>
    intro _ acc
    simp [splitRec]
  | cons r rs ih =>
    intro hr acc
    obtain ⟨a, t, hsh, ha, hat⟩ := hr r (List.mem_cons_self r rs)
    subst hsh
    show splitRec ((a :: (t ++ [a])) ++ rs.join) "" [] acc = _
    have hstep : splitRec ((a :: (t ++ [a])) ++ rs.join) "" [] acc =
        splitRec ((t ++ [a]) ++ rs.join) a [a] acc := by
      show splitRec (a :: ((t ++ [a]) ++ rs.join)) "" [] acc = _
      simp only [splitRec]
      rw [if_neg (by simpa using ha)]
      simp
    rw [hstep]
    have harr : (t ++ [a]) ++ rs.join = t ++ a :: rs.join := by simp
    rw [harr, splitRec_walk a ha t rs.join [a] acc hat]
    rw [show ([a] ++ t ++ [a] : List String) = a :: (t ++ [a]) by simp]
    rw [ih (fun r hr2 => hr r (List.mem_cons_of_mem _ hr2)) (acc ++ [a :: (t ++ [a])])]
    simp

theorem edgeOf_congr {ro ro' : List (String × String)}
    (h : ∀ c, parentOf ro c = parentOf ro' c) (p c : String) :
    EdgeOf ro p c ↔ EdgeOf ro' p c := by
  unfold EdgeOf
  rw [h c]

theorem closedCycle_congr {ro ro' : List (String × String)}
    (h : ∀ c, parentOf ro c = parentOf ro' c) (cyc : List String) :
    ClosedCycle ro cyc ↔ ClosedCycle ro' cyc := by
  unfold ClosedCycle
  rw [h]
  constructor
  · rintro ⟨h1, h2, h3, h4⟩
    exact ⟨h1, List.Chain'.imp (fun a b hab => (edgeOf_congr h a b).mp hab) h2, h3, h4⟩
  · rintro ⟨h1, h2, h3, h4⟩
    exact ⟨h1, List.Chain'.imp (fun a b hab => (edgeOf_congr h a b).mpr hab) h2, h3, h4⟩

/-- Every recursion run closes on its own head, which does not recur in
the body and lies on a cycle. -/
theorem isCycleRun_shape (ro : List (String × String)) (r : List String)
    (h : IsCycleRun ro r) :
    ∃ a t, r = a :: (t ++ [a]) ∧ a ∉ t ∧ OnCycle ro a := by
  obtain ⟨cyc, hcyc, rfl⟩ := h
  have hne := hcyc.1
  have hget : cyc.getLast?.getD "" = cyc.getLast hne := by
    rw [List.getLast?_eq_getLast cyc hne]
    rfl
  refine ⟨cyc.getLast hne, cyc.dropLast, ?_, ?_, ?_⟩
  · rw [List.dropLast_append_getLast hne, hget]
  · have hnd := hcyc.2.2.2
    conv at hnd => rw [← List.dropLast_append_getLast hne]
    rw [List.nodup_append] at hnd
    intro hmem
    exact hnd.2.2 hmem (List.mem_singleton_self _)
  · exact closedCycle_mem_onCycle ro hcyc (List.getLast_mem hne)

/-- `validateGraph` is the per-run cyclic errors followed by an optional
multiple-roots error. -/
theorem validateGraph_eq (g : Graph) :
    validateGraph g =
      (splitRec g.recursion "" [] []).map Err.circular ++
        (if 1 < ((g.sorted.foldl (rootStep g) ([], 0)).1).length
         then [Err.multipleRoots (((g.sorted.foldl (rootStep g) ([], 0)).1).map
           (fun k => lookupD g.ids k ""))]
         else []) := by
  unfold validateGraph
  split
  · rename_i hroots
    rw [if_pos hroots]
  · rename_i hroots
    rw [if_neg hroots]
    simp

/-- On a valid-named input, `NewGraph` reduces to the graph-validation
branch over the built graph object. -/
theorem NewGraph_valid_eq (data ro : List (String × String)) (vo : List String)
    (hvalid : (buildRelations data).2.2 = []) :
    NewGraph data ro vo =
      (if (validateGraph ⟨buildVertices ro, (buildRelations data).2.1,
            (tsort (buildVertices ro) vo).1, (tsort (buildVertices ro) vo).2.1,
            (tsort (buildVertices ro) vo).2.2⟩).isEmpty = true
       then .ok ⟨buildVertices ro, (buildRelations data).2.1,
            (tsort (buildVertices ro) vo).1, (tsort (buildVertices ro) vo).2.1,
            (tsort (buildVertices ro) vo).2.2⟩
       else .error (validateGraph ⟨buildVertices ro, (buildRelations data).2.1,
            (tsort (buildVertices ro) vo).1, (tsort (buildVertices ro) vo).2.1,
            (tsort (buildVertices ro) vo).2.2⟩)) := by
  unfold NewGraph
  rcases hbr : buildRelations data with ⟨rels, ids, errs⟩
  rw [hbr] at hvalid
  simp only at hvalid
  subst hvalid
  rcases hts : tsort (buildVertices ro) vo with ⟨sorted, recursive, recursion⟩
  simp only [hts]
  rfl

/-- C3 (amended to valid-named inputs): on an input whose names all pass
validation and whose normalized relation graph has a cycle, `NewGraph`
returns no graph but an aggregate matching the cyclic kind, holding one
cyclic error per distinct cycle, each carrying the full closed path of
keys around that cycle (followed by at most a multiple-roots error). -/
theorem claim_C3_cycle_error_per_cycle (data relOrder : List (String × String))
    (vertOrder : List String)
    (hrel : relOrder.Perm (relationsOf data))
    (hvert : vertOrder.Perm (vertexKeys relOrder))
    (hvalid : (buildRelations data).2.2 = [])
    (x0 : String) (hcyc : OnCycle (relationsOf data) x0) :
    ∃ (runs : List (List String)) (rest : List Err),
      NewGraph data relOrder vertOrder = .error (runs.map Err.circular ++ rest) ∧
      errsIs (runs.map Err.circular ++ rest) ErrKind.circular = true ∧
      (rest = [] ∨ ∃ ns, rest = [Err.multipleRoots ns]) ∧
      (∀ r ∈ runs, ∃ cyc, ClosedCycle (relationsOf data) cyc ∧
        r = cyc.getLast?.getD "" :: cyc) ∧
      (∀ u, OnCycle (relationsOf data) u →
        runs.countP (fun r => decide (u ∈ r.tail)) = 1) := by
  have hnd : (relOrder.map Prod.fst).Nodup :=
    ((hrel.map Prod.fst).nodup_iff).mpr (relationsOf_keys_nodup data)
  have hpo : ∀ c, parentOf relOrder c = parentOf (relationsOf data) c :=
    fun c => parentOf_perm hrel hnd c
  have horder : ∀ k ∈ (buildVertices relOrder).map Prod.fst, k ∈ vertOrder :=
    fun k hk => hvert.mem_iff.mpr hk
  obtain ⟨runs, hjoin, hruns, hcount⟩ :=
    tsort_runs relOrder (buildVertices relOrder)
      (mem_afters_iff relOrder hnd) (afters_nodup relOrder hnd)
      (fun p c h => (buildVertices_keys_mem relOrder c p
        (mem_of_parentOf_eq_some relOrder c p h)).1) vertOrder horder
  have hshape : ∀ r ∈ runs, ∃ a t, r = a :: (t ++ [a]) ∧ a ≠ "" ∧ a ∉ t := by
    intro r hr
    obtain ⟨a, t, hsh, hat, hOn⟩ := isCycleRun_shape relOrder r (hruns r hr)
    have hOn2 : OnCycle (relationsOf data) a := (onCycle_congr hpo a).mp hOn
    exact ⟨a, t, hsh, onCycle_key_ne_empty data hvalid a hOn2, hat⟩
  set g : Graph := ⟨buildVertices relOrder, (buildRelations data).2.1,
    (tsort (buildVertices relOrder) vertOrder).1,
    (tsort (buildVertices relOrder) vertOrder).2.1,
    (tsort (buildVertices relOrder) vertOrder).2.2⟩ with hg
  have hsplit : splitRec g.recursion "" [] [] = runs := by
    have hgr : g.recursion = runs.join := hjoin
    rw [hgr, splitRec_join runs hshape []]
    simp
  set rest0 : List Err := (if 1 < ((g.sorted.foldl (rootStep g) ([], 0)).1).length
     then [Err.multipleRoots (((g.sorted.foldl (rootStep g) ([], 0)).1).map
       (fun k => lookupD g.ids k ""))] else []) with hrest0
  have hverrs : validateGraph g = runs.map Err.circular ++ rest0 := by
    rw [validateGraph_eq g, hsplit]
  have hrunsne : runs ≠ [] := by
    intro h0
    have hc := hcount x0 ((onCycle_congr hpo x0).mpr hcyc)
    rw [h0] at hc
    simp at hc
  have hvne : ¬ (validateGraph g).isEmpty = true := by
    rw [hverrs]
    cases runs with
    | nil => exact absurd rfl hrunsne
    | cons r rs => simp
  have hng : NewGraph data relOrder vertOrder = .error (validateGraph g) := by
    rw [NewGraph_valid_eq data relOrder vertOrder hvalid, ← hg, if_neg hvne]
  refine ⟨runs, rest0, ?_, ?_, ?_, ?_, ?_⟩
  · rw [hng, hverrs]
  · cases runs with
    | nil => exact absurd rfl hrunsne
    | cons r rs => simp [errsIs, Err.kind]
  · rw [hrest0]
    split
    · right
      exact ⟨_, rfl⟩
    · exact Or.inl rfl
  · intro r hr
    obtain ⟨cyc, hcyc2, hreq⟩ := hruns r hr
    exact ⟨cyc, (closedCycle_congr hpo cyc).mp hcyc2, hreq⟩
  · intro u hu
    exact hcount u ((onCycle_congr hpo u).mpr hu)

theorem claim_C3_amended_witness :
    ∃ (runs : List (List String)) (rest : List Err),
      NewGraph exampleCycle (relationsOf exampleCycle)
          (vertexKeys (relationsOf exampleCycle)) =
        .error (runs.map Err.circular ++ rest) ∧
      errsIs (runs.map Err.circular ++ rest) ErrKind.circular = true ∧
      (rest = [] ∨ ∃ ns, rest = [Err.multipleRoots ns]) ∧
      (∀ r ∈ runs, ∃ cyc, ClosedCycle (relationsOf exampleCycle) cyc ∧
        r = cyc.getLast?.getD "" :: cyc) ∧
      (∀ u, OnCycle (relationsOf exampleCycle) u →
        runs.countP (fun r => decide (u ∈ r.tail)) = 1) :=
  claim_C3_cycle_error_per_cycle exampleCycle (relationsOf exampleCycle)
    (vertexKeys (relationsOf exampleCycle)) (List.Perm.refl _) (List.Perm.refl _)
    rfl "jonas" ⟨3, by decide⟩

end Toposort
